import Mathlib

/-!
Shallow embedding of the osg-repo-scripts repository: `migrate.py` (layout
migration of an RPM mirror) and `distrepos/symlink_utils.py` /
`distrepos/symlink_latest_release.py` (latest-release pointers and static-data
symlinks).  File and directory names are lists of characters, paths are lists
of name components measured from the filesystem root, and the filesystem is an
association list from paths to nodes together with an inode counter.  All
paths handled by the scripts are already resolved (`FPath.resolve` is the
identity on them), which is how the scripts are invoked.
-/

/-- A file or directory name, as the character list of the Python string. -/
abbrev Name := List Char

/-- An absolute filesystem path: its name components from the root. -/
abbrev FPath := List Name

/-- The target stored inside a symlink: a relative or absolute component list,
exactly as the string given to `os.symlink` / `FPath.symlink_to`. -/
structure SLTarget where
  isAbs : Bool
  comps : FPath
deriving DecidableEq

/-- A filesystem node: a regular file (inode number and content), a
directory, or a symbolic link holding its raw target. -/
inductive Node where
  | file (ino : Nat) (content : Nat)
  | dir
  | symlink (target : SLTarget)
deriving DecidableEq

/-- Association-list lookup on path-keyed entries. -/
def lookupA (p : FPath) : List (FPath × Node) → Option Node
  | [] => none
  | e :: es => if e.1 = p then some e.2 else lookupA p es

/-- Remove every entry keyed by `p`. -/
def eraseA (p : FPath) : List (FPath × Node) → List (FPath × Node)
  | [] => []
  | e :: es => if e.1 = p then eraseA p es else e :: eraseA p es

/-- The filesystem state: entries plus a counter supplying fresh inode
numbers for `shutil.copy2`. -/
structure FS where
  entries : List (FPath × Node)
  nextIno : Nat
deriving DecidableEq

def FS.lookup (fs : FS) (p : FPath) : Option Node := lookupA p fs.entries

def FS.set (fs : FS) (p : FPath) (n : Node) : FS :=
  { fs with entries := (p, n) :: eraseA p fs.entries }

def FS.erase (fs : FS) (p : FPath) : FS :=
  { fs with entries := eraseA p fs.entries }

/-- Boolean test that `a` is an initial segment of `b`. -/
def isInitSeg {α : Type} [DecidableEq α] : List α → List α → Bool
  | [], _ => true
  | _ :: _, [] => false
  | a :: as, b :: bs => if a = b then isInitSeg as bs else false

/-- Boolean test that `pat` is a final segment of `l`. -/
def endsWith {α : Type} [DecidableEq α] (l pat : List α) : Bool :=
  isInitSeg pat.reverse l.reverse

/-- Boolean test that `pat` occurs contiguously inside `l`
(the semantics of `re.search` for a fixed literal alternative). -/
def containsSeq {α : Type} [DecidableEq α] (pat : List α) : List α → Bool
  | [] => isInitSeg pat []
  | x :: xs => isInitSeg pat (x :: xs) || containsSeq pat xs

/-- The last component of a path, `""` at the root
(the behaviour of `PurePath.name` degraded to the default). -/
def lastName (p : FPath) : Name := p.getLast?.getD []

/-- `childName d p = some x` exactly when `p = d ++ [x]`,
i.e. `p` is a direct child of directory `d` named `x`. -/
def childName (d p : FPath) : Option Name :=
  if isInitSeg d p then
    match p.drop d.length with
    | [x] => some x
    | _ => none
  else none

/-- All initial segments of a path, shortest first
(the chain of directories `mkdir(parents=True)` walks). -/
def initsOf : FPath → List FPath
  | [] => [[]]
  | x :: xs => [] :: (initsOf xs).map (fun q => x :: q)

def dotdot : Name := "..".toList

def dotName : Name := ".".toList

/-- Length of the longest common initial segment of two paths. -/
def commonLen : FPath → FPath → Nat
  | a :: as, b :: bs => if a = b then commonLen as bs + 1 else 0
  | _, _ => 0

/-- `os.path.relpath topath start`: climb out of the non-shared part of
`start` with `..` components, then descend into `topath`; the empty result
becomes `"."`. -/
def relpath (topath start : FPath) : FPath :=
  let c := commonLen topath start
  let r := List.replicate (start.length - c) dotdot ++ topath.drop c
  if r = [] then [dotName] else r

/-- One step of lexical path normalisation: `..` pops a component,
`.` is dropped, anything else is appended. -/
def normStep (acc : FPath) (x : Name) : FPath :=
  if x = dotdot then acc.dropLast else if x = dotName then acc else acc ++ [x]

/-- Lexical normalisation of a component list measured from the root. -/
def normPath (p : FPath) : FPath := p.foldl normStep []

/-- Fuel for symlink chain resolution; the chains built by these scripts
have length at most one. -/
def resolveFuel : Nat := 64

/-- Resolve the node at `p`, following a symlink in the final component
(the scripts never place symlinks on intermediate components). -/
def resolveNode (fs : FS) : Nat → FPath → Option Node
  | 0, _ => none
  | Nat.succ fuel, p =>
    match fs.lookup p with
    | some (Node.symlink t) =>
        resolveNode fs fuel
          (if t.isAbs then normPath t.comps else normPath (p.dropLast ++ t.comps))
    | r => r

/-- `FPath.exists`: follows symlinks. -/
def existsAt (fs : FS) (p : FPath) : Bool := (resolveNode fs resolveFuel p).isSome

/-- `FPath.is_symlink`: an `lstat`-style check, no following. -/
def isSymlinkAt (fs : FS) (p : FPath) : Bool :=
  match fs.lookup p with
  | some (Node.symlink _) => true
  | _ => false

/-- `destdir.mkdir(exist_ok=True, parents=True)`: create a directory node at
every missing initial segment of `d`; existing nodes are left alone. -/
def mkdirParents (fs : FS) (d : FPath) : FS :=
  (initsOf d).foldl (fun acc q => if (acc.lookup q).isSome then acc else acc.set q Node.dir) fs

/-- `os.rename`: move the node at `src` to `dst` (overwriting `dst`).
The error branch (missing `src`) is never reached by the migrations proved
about below, so it is modelled as a no-op. -/
def rename (fs : FS) (src dst : FPath) : FS :=
  match fs.lookup src with
  | some n => (fs.erase src).set dst n
  | none => fs

/-- `os.symlink(target, linkpath)` in contexts where `linkpath` is known to be
absent (in `move_and_symlink` it was renamed away just before). -/
def symlinkAt (fs : FS) (linkpath : FPath) (t : SLTarget) : FS :=
  fs.set linkpath (Node.symlink t)

/-! ## migrate.py -/

/-- `move_and_symlink` (migrate.py): move a file and leave a relative
symlink at its original location pointing to its new location. -/
def move_and_symlink (fs : FS) (frompath topath : FPath) : FS :=
  let fs1 := rename fs frompath topath
  symlinkAt fs1 frompath ⟨false, relpath topath frompath.dropLast⟩

/-- `hardlink_or_copy_file` (migrate.py): `os.link` follows the source
symlink and fails when the destination exists, in which case
`shutil.copy2` overwrites it with a fresh-inode copy of the same content. -/
def hardlink_or_copy_file (fs : FS) (frompath topath : FPath) : FS :=
  match resolveNode fs resolveFuel frompath with
  | some (Node.file i c) =>
    if (fs.lookup topath).isSome then
      { entries := (topath, Node.file fs.nextIno c) :: eraseA topath fs.entries,
        nextIno := fs.nextIno + 1 }
    else fs.set topath (Node.file i c)
  | _ => fs

/-- The fixed glob set `CONDOR_RPM_GLOBS`, each glob being
`<lead>*<rpmTail>` with `rpmTail = ".rpm"`. -/
def CONDOR_RPM_LEADS : List Name :=
  ["condor-".toList, "htcondor-ce-".toList, "htcondor-release-".toList,
   "minicondor-".toList, "pelican-".toList, "python3-condor-".toList]

def rpmTail : Name := ".rpm".toList

/-- `fnmatch` of a one-star glob `<lead>*<tail>` against a name. -/
def globMatch (lead tail n : Name) : Bool :=
  isInitSeg lead n && endsWith n tail && decide (lead.length + tail.length ≤ n.length)

/-- `any(rpm.match(gl) for gl in CONDOR_RPM_GLOBS)` (migrate.py line 122). -/
def isCondorRpm (n : Name) : Bool :=
  CONDOR_RPM_LEADS.any (fun p => globMatch p rpmTail n)

/-- The alternatives of the regular expression `[.]osg(3[123456]|devops)`. -/
def LEGACY_MARKERS : List Name :=
  [".osg31".toList, ".osg32".toList, ".osg33".toList, ".osg34".toList,
   ".osg35".toList, ".osg36".toList, ".osgdevops".toList]

/-- `re.search(r"[.]osg(3[123456]|devops)", name)` succeeds. -/
def isLegacy (n : Name) : Bool := LEGACY_MARKERS.any (fun m => containsSeq m n)

/-- A name matched by the glob `*.rpm`. -/
def isRpmName (n : Name) : Bool := endsWith n rpmTail

/-- Lexicographic-by-codepoint order on names (Python string order for the
package names at hand). -/
def nameLe : Name → Name → Bool
  | [], _ => true
  | _ :: _, [] => false
  | a :: as, b :: bs => if a = b then nameLe as bs else decide (a < b)

def insortName (n : Name) : List Name → List Name
  | [] => [n]
  | m :: ms => if nameLe n m then n :: m :: ms else m :: insortName n ms

def insortNames (l : List Name) : List Name := l.foldr insortName []

/-- `sorted(repo.glob("*.rpm"))` (migrate.py line 106): the names of the
direct children of `repo` matching `*.rpm`, each once, in sorted order. -/
def listRpms (fs : FS) (repo : FPath) : List Name :=
  insortNames ((((fs.entries.map Prod.fst).filterMap (childName repo)).filter isRpmName).dedup)

/-- The resolved parent (grandparent for `debug`/`SRPMS`) directory name
inspected by `get_condor_package_subdirs`. -/
def repoParentName (repo : FPath) : Name :=
  if lastName repo = "debug".toList ∨ lastName repo = "SRPMS".toList then
    lastName (repo.dropLast.dropLast)
  else lastName repo.dropLast

/-- `get_condor_package_subdirs` (migrate.py lines 64-86). -/
def get_condor_package_subdirs (repo : FPath) : List Name :=
  if repoParentName repo = "testing".toList ∨ repoParentName repo = "release".toList then
    ["condor-release".toList, "condor-update".toList]
  else if repoParentName repo = "development".toList then
    ["condor-daily".toList]
  else
    ["condor-release".toList, "condor-update".toList, "condor-daily".toList]

/-- `rpm.name[0] in "0123456789"` uses exactly these characters. -/
def digitChars : Name := "0123456789".toList

/-- The non-Condor destination bucket (migrate.py lines 127-130): `"0"` for a
leading digit, otherwise the lowercased first character.  Glob-listed names
are never empty, so the `[]` case is unreachable. -/
def bucketFor (n : Name) : Name :=
  match n with
  | [] => []
  | c :: _ => if c ∈ digitChars then ['0'] else [c.toLower]

/-- The body of the replica loop (migrate.py lines 144-150) for one of the
remaining Condor bucket names. -/
def replicaStep (rpm packagesDir : FPath) (nm : Name) (dryRun : Bool) (fs2 : FS)
    (sub : Name) : FS :=
  let otherDestdir := packagesDir ++ [sub]
  if dryRun then fs2
  else hardlink_or_copy_file (mkdirParents fs2 otherDestdir) rpm (otherDestdir ++ [nm])

/-- The body of the per-RPM loop of `migrate_one_repo`
(migrate.py lines 114-150). -/
def migrate_rpm (repo packagesDir : FPath) (subdirs : List Name) (dryRun : Bool)
    (fs : FS) (nm : Name) : FS :=
  let rpm := repo ++ [nm]
  if isSymlinkAt fs rpm then fs
  else
    let isCondor := isCondorRpm nm
    let destdir := if isCondor then packagesDir ++ [subdirs.headD []]
                   else packagesDir ++ [bucketFor nm]
    let destfile := destdir ++ [nm]
    let fs1 := if dryRun then fs else move_and_symlink (mkdirParents fs destdir) rpm destfile
    if isCondor then (subdirs.drop 1).foldl (replicaStep rpm packagesDir nm dryRun) fs1
    else fs1

/-- `migrate_one_repo` (migrate.py lines 89-152): gate on pre-OSG-23 RPMs,
then move every listed RPM; returns the final state and the migrated flag. -/
def migrate_one_repo (fs : FS) (repo packagesDir : FPath) (dryRun : Bool) : FS × Bool :=
  let allRpms := listRpms fs repo
  if allRpms.any isLegacy then (fs, false)
  else
    (allRpms.foldl (migrate_rpm repo packagesDir (get_condor_package_subdirs repo) dryRun) fs,
     true)

/-- `repo.parts[-2:] == ("source", "SRPMS")`. -/
def endsSourceSRPMS (repo : FPath) : Bool :=
  decide (repo.drop (repo.length - 2) = ["source".toList, "SRPMS".toList])

/-- `migrate_source` (migrate.py lines 155-185) over the sequence of repo
roots produced by the locator.  Note that the two already-migrated guards
`return` from the whole function, ending iteration over the remaining roots. -/
def migrate_source (dryRun : Bool) : FS → List FPath → FS
  | fs, [] => fs
  | fs, repo :: rest =>
    if endsSourceSRPMS repo then
      if isSymlinkAt fs repo then fs
      else
        let dest := repo.dropLast.dropLast ++ ["src".toList]
        if existsAt fs dest then fs
        else
          let r := migrate_one_repo fs repo (repo ++ ["Packages".toList]) dryRun
          let fs2 := if r.2 then (if dryRun then r.1 else move_and_symlink r.1 repo dest)
                     else r.1
          migrate_source dryRun fs2 rest
    else migrate_source dryRun fs rest

/-! ## distrepos/symlink_utils.py and distrepos/symlink_latest_release.py -/

/-- Exceptions raised by `pathlib` operations: `Path.symlink_to` raises
`FileExistsError` when the link path already exists, and
`PurePath.relative_to` raises `ValueError` when the path is not inside the
base (no `walk_up`). -/
inductive FsError where
  | fileExists (p : FPath)
  | valueError (p base : FPath)
deriving DecidableEq

/-- `PurePath.relative_to`: succeeds only when `base` is an initial segment. -/
def relative_to (p base : FPath) : Option FPath :=
  if isInitSeg base p then some (p.drop base.length) else none

/-- `Path.symlink_to(target)`: creates the link or raises `FileExistsError`. -/
def symlink_to (fs : FS) (linkpath : FPath) (t : SLTarget) : Except FsError FS :=
  if (fs.lookup linkpath).isSome then Except.error (FsError.fileExists linkpath)
  else Except.ok (fs.set linkpath (Node.symlink t))

/-- Value of the digit run of a decimal literal. -/
def digitsToNat (ds : Name) : Nat := ds.foldl (fun a c => a * 10 + (c.toNat - 48)) 0

/-- Match `[0-9]+\.osg` at the start of `s` (the part of `RELEASE_PATTERN`
after the hyphen); the greedy digit run needs no backtracking because a
shorter run would be followed by another digit, not by `.`. -/
def matchNumDotOsg (s : Name) : Option Nat :=
  let ds := s.takeWhile Char.isDigit
  if ds ≠ [] ∧ isInitSeg ".osg".toList (s.drop ds.length) then some (digitsToNat ds)
  else none

/-- `RELEASE_PATTERN.search`: the leftmost occurrence of `-([0-9]+)\.osg`. -/
def findRelNum : Name → Option Nat
  | [] => none
  | c :: rest =>
    match (if c = '-' then matchNumDotOsg rest else none) with
    | some k => some k
    | none => findRelNum rest

/-- `_get_release_number`: the captured integer, `0` when nothing matches. -/
def get_release_number (n : Name) : Nat := (findRelNum n).getD 0

/-- The components `release/<arch>` occur with at least one further component
after them (the inner `**` plus the final pattern component). -/
def hasRelArchBeforeLast (arch : Name) : FPath → Bool
  | a :: b :: c :: rest =>
    (decide (a = "release".toList) && decide (b = arch))
      || hasRelArchBeforeLast arch (b :: c :: rest)
  | _ => false

/-- `rglob(f"release/{base_arch}/**/osg-release*")` applied to the path
relative to the globbed root: some `release/<arch>` pair sits strictly before
the final component, and the final component starts with `osg-release`. -/
def rglobMatch (arch : Name) (r : FPath) : Bool :=
  hasRelArchBeforeLast arch r && isInitSeg "osg-release".toList (lastName r)

/-- The filtered candidate list of `link_latest_release` (lines 103-106):
entries under `root` matching the rglob pattern whose release number parses
positive. -/
def releaseCandidates (fs : FS) (root : FPath) (arch : Name) : List FPath :=
  ((fs.entries.map Prod.fst).filter
    (fun p => isInitSeg root p && rglobMatch arch (p.drop root.length)
      && decide (0 < get_release_number (lastName p)))).dedup

/-- `sorted(key=_get_release_number, reverse=True)[0]`: by stability of
Python's sort this is the first element attaining the maximal release
number. -/
def firstMaxBy (f : FPath → Nat) : FPath → List FPath → FPath
  | best, [] => best
  | best, x :: rest => if f x > f best then firstMaxBy f x rest else firstMaxBy f best rest

/-- One release series descriptor (`distrepos.params.ReleaseSeries`):
name, destination subdirectory, architectures, OS versions. -/
structure ReleaseSeries where
  name : Name
  dest : FPath
  arches : List Name
  dvers : List Name
deriving DecidableEq

/-- `<series_root>/osg-<series>-<dver>-release-latest.rpm`. -/
def latestLinkName (s : ReleaseSeries) (dver : Name) : Name :=
  "osg-".toList ++ s.name ++ "-".toList ++ dver ++ "-release-latest.rpm".toList

/-- The inner `for dver in series.dvers` loop of `link_latest_release`
(lines 100-113).  The `false` flag reports the early `return False` taken
when a dver has no valid candidate. -/
def llrDvers (destRoot : FPath) (s : ReleaseSeries) : FS → List Name → Except FsError (FS × Bool)
  | fs, [] => Except.ok (fs, true)
  | fs, dver :: rest =>
    let seriesRoot := destRoot ++ s.dest
    match releaseCandidates fs (seriesRoot ++ [dver]) (s.arches.headD []) with
    | [] => Except.ok (fs, false)
    | c0 :: crest =>
      let best := firstMaxBy (fun p => get_release_number (lastName p)) c0 crest
      let latest := seriesRoot ++ [latestLinkName s dver]
      match relative_to best seriesRoot with
      | none => Except.error (FsError.valueError best seriesRoot)
      | some rel =>
        match symlink_to fs latest ⟨false, rel⟩ with
        | Except.error e => Except.error e
        | Except.ok fs2 => llrDvers destRoot s fs2 rest

/-- The `(ok, message)` outcome of `link_latest_release`: `ok fs` is
`(True, "")`, `failed fs series` is `(False, "No valid release RPMs found for
series <series>")`. -/
inductive LLResult where
  | ok (fs : FS)
  | failed (fs : FS) (seriesName : Name)
deriving DecidableEq

/-- `link_latest_release` (symlink_utils.py lines 83-115); identical logic to
`create_latest_release_symlink` in symlink_latest_release.py lines 21-46. -/
def link_latest_release (destRoot : FPath) : FS → List ReleaseSeries → Except FsError LLResult
  | fs, [] => Except.ok (LLResult.ok fs)
  | fs, s :: rest =>
    match llrDvers destRoot s fs s.dvers with
    | Except.error e => Except.error e
    | Except.ok (fs2, false) => Except.ok (LLResult.failed fs2 s.name)
    | Except.ok (fs2, true) => link_latest_release destRoot fs2 rest

/-- The `(ok, message)` outcome of `link_static_data`. -/
inductive LSDResult where
  | ok (fs : FS)
  | notAbsolute
  | srcMissing (p : FPath)
  | notASymlink (fs : FS) (p : FPath)
deriving DecidableEq

/-- The direct child names of directory `d` present in `fs`
(`Path.iterdir`, order immaterial to the results proved below). -/
def childrenOf (fs : FS) (d : FPath) : List Name :=
  ((fs.entries.map Prod.fst).filterMap (childName d)).dedup

/-- One step of the decayed-symlink sweep of `link_static_data`
(lines 45-47): drop a destination symlink whose raw target lies strictly
below `staticSrc` (so the target path is absolute) but no longer exists. -/
def lsdCleanStep (staticSrc dataDst : FPath) (fs : FS) (n : Name) : FS :=
  let pth := dataDst ++ [n]
  match fs.lookup pth with
  | some (Node.symlink t) =>
    if t.isAbs && isInitSeg staticSrc t.comps
        && decide (staticSrc.length < t.comps.length) && !(existsAt fs t.comps) then
      fs.erase pth
    else fs
  | _ => fs

/-- The creation loop of `link_static_data` (lines 50-64): keep a correct
symlink, unlink an incorrect one, fail on a non-symlink occupant, then
`dest.symlink_to(pth.relative_to(dest.parent))` — which raises `ValueError`
whenever `pth` is not under `dest.parent`. -/
def lsdCreate (staticSrc dataDst : FPath) : FS → List Name → Except FsError LSDResult
  | fs, [] => Except.ok (LSDResult.ok fs)
  | fs, n :: rest =>
    let pth := staticSrc ++ [n]
    let dest := dataDst ++ [n]
    match fs.lookup dest with
    | some (Node.symlink t) =>
      if t.isAbs ∧ t.comps = pth then lsdCreate staticSrc dataDst fs rest
      else
        match relative_to pth dataDst with
        | none => Except.error (FsError.valueError pth dataDst)
        | some rel =>
          match symlink_to (fs.erase dest) dest ⟨false, rel⟩ with
          | Except.error e => Except.error e
          | Except.ok fs2 => lsdCreate staticSrc dataDst fs2 rest
    | some _ => Except.ok (LSDResult.notASymlink fs dest)
    | none =>
      match relative_to pth dataDst with
      | none => Except.error (FsError.valueError pth dataDst)
      | some rel =>
        match symlink_to fs dest ⟨false, rel⟩ with
        | Except.error e => Except.error e
        | Except.ok fs2 => lsdCreate staticSrc dataDst fs2 rest

/-- `link_static_data` (symlink_utils.py lines 11-66).  In this embedding all
paths are absolute, so `Path('/') in static_root.parents` fails exactly for
the root itself. -/
def link_static_data (fs : FS) (staticRoot : Option FPath) (destRoot : FPath)
    (repoName : Name) : Except FsError LSDResult :=
  match staticRoot with
  | none => Except.ok (LSDResult.ok fs)
  | some sroot =>
    if sroot = [] then Except.ok LSDResult.notAbsolute
    else
      let staticSrc := sroot ++ [repoName]
      let dataDst := destRoot ++ [repoName]
      if !(existsAt fs staticSrc) then Except.ok (LSDResult.srcMissing staticSrc)
      else
        let fs1 := if existsAt fs dataDst then fs else fs.set dataDst Node.dir
        let fs2 := (childrenOf fs1 dataDst).foldl (lsdCleanStep staticSrc dataDst) fs1
        lsdCreate staticSrc dataDst fs2 (childrenOf fs2 staticSrc)

/-! ## Concrete states used as witnesses and counterexamples -/

/-- A source repo holding a pre-OSG-23 (legacy) source RPM. -/
def repoW1 : FPath := ["osg".toList, "source".toList, "SRPMS".toList]

def fsW1 : FS :=
  ⟨[(repoW1, Node.dir),
    (repoW1 ++ ["bar-1.0-1.osg35.el8.src.rpm".toList], Node.file 1 11)], 50⟩

/-- A release-channel binary repo with one Condor RPM and one ordinary RPM. -/
def repoW2 : FPath :=
  ["osg".toList, "23-main".toList, "el9".toList, "release".toList, "x86_64".toList]

def fsW2 : FS :=
  ⟨[(repoW2, Node.dir),
    (repoW2 ++ ["condor-10.0.0-1.osg23.el9.x86_64.rpm".toList], Node.file 1 101),
    (repoW2 ++ ["zlib-1.2.3-1.osg24.x86_64.rpm".toList], Node.file 2 102)], 10⟩

/-- Two source repo roots: the first already migrated (a symlink), the second
not yet migrated. -/
def repoS1 : FPath := ["a".toList, "source".toList, "SRPMS".toList]

def repoS2 : FPath := ["b".toList, "source".toList, "SRPMS".toList]

def fsW6 : FS :=
  ⟨[(repoS1, Node.symlink ⟨false, ["..".toList, "src".toList]⟩),
    (repoS2, Node.dir),
    (repoS2 ++ ["foo-1.0-1.osg24.el9.src.rpm".toList], Node.file 3 33)], 7⟩

/-- A file about to be moved by `move_and_symlink`. -/
def fsW7 : FS := ⟨[(["a".toList, "b.rpm".toList], Node.file 4 44)], 9⟩

/-- One release series with a single OS version, used for the latest-release
pointer theorems. -/
def serW : ReleaseSeries :=
  ⟨"23-main".toList, ["23-main".toList], ["x86_64".toList], ["el9".toList]⟩

def fsW8 : FS :=
  ⟨[(["23-main".toList, "el9".toList, "release".toList, "x86_64".toList,
      "osg-release-5.osg23.rpm".toList], Node.file 1 1),
    (["23-main".toList, "el9".toList, "release".toList, "x86_64".toList,
      "osg-release-9.osg23.rpm".toList], Node.file 2 2)], 5⟩

/-- `fsW8` with the fixed-named latest symlink already present. -/
def fsW8x : FS :=
  ⟨fsW8.entries ++
    [(["23-main".toList, "osg-23-main-el9-release-latest.rpm".toList],
      Node.symlink ⟨false, ["stale".toList]⟩)], 5⟩

/-- A static-data source with one entry whose destination slot is missing. -/
def fsW9 : FS :=
  ⟨[(["st".toList, "osg".toList], Node.dir),
    (["st".toList, "osg".toList, "data".toList], Node.file 1 1)], 0⟩

/-! ## Basic lemmas about the filesystem model -/

theorem lookupA_cons (p : FPath) (e : FPath × Node) (es : List (FPath × Node)) :
    lookupA p (e :: es) = if e.1 = p then some e.2 else lookupA p es := rfl

theorem eraseA_cons (p : FPath) (e : FPath × Node) (es : List (FPath × Node)) :
    eraseA p (e :: es) = if e.1 = p then eraseA p es else e :: eraseA p es := rfl

theorem lookupA_eraseA (p q : FPath) (l : List (FPath × Node)) :
    lookupA q (eraseA p l) = if q = p then none else lookupA q l := by
  induction l with
  | nil => by_cases h : q = p <;> simp [eraseA, lookupA, h]
  | cons e es ih =>
    rw [eraseA_cons]
    by_cases h1 : e.1 = p
    · rw [if_pos h1, ih, lookupA_cons]
      by_cases h2 : q = p
      · rw [if_pos h2, if_pos h2]
      · have h3 : ¬ e.1 = q := fun hq => h2 (hq.symm.trans h1)
        rw [if_neg h2, if_neg h2, if_neg h3]
    · rw [if_neg h1, lookupA_cons, lookupA_cons, ih]
      by_cases h3 : e.1 = q
      · have h2 : ¬ q = p := fun hq => h1 (h3.trans hq)
        rw [if_pos h3, if_neg h2, if_pos h3]
      · rw [if_neg h3, if_neg h3]

theorem FS.lookup_set (fs : FS) (p : FPath) (n : Node) (q : FPath) :
    (fs.set p n).lookup q = if q = p then some n else fs.lookup q := by
  show lookupA q ((p, n) :: eraseA p fs.entries) = _
  rw [lookupA_cons]
  by_cases h : q = p
  · rw [if_pos (show (p, n).1 = q from h.symm), if_pos h]
  · have h' : ¬ (p, n).1 = q := fun hh => h hh.symm
    rw [if_neg h', lookupA_eraseA, if_neg h, if_neg h]
    rfl

theorem FS.lookup_erase (fs : FS) (p q : FPath) :
    (fs.erase p).lookup q = if q = p then none else fs.lookup q :=
  lookupA_eraseA p q fs.entries

theorem lookupA_isSome_iff (q : FPath) (l : List (FPath × Node)) :
    (lookupA q l).isSome = true ↔ q ∈ l.map Prod.fst := by
  induction l with
  | nil => simp [lookupA]
  | cons e es ih =>
    rw [lookupA_cons]
    by_cases h : e.1 = q
    · rw [if_pos h]
      constructor
      · intro _
        exact List.mem_cons.mpr (Or.inl h.symm)
      · intro _
        rfl
    · rw [if_neg h, ih]
      simp only [List.map_cons, List.mem_cons]
      constructor
      · exact Or.inr
      · rintro (hq | hq)
        · exact absurd hq.symm h
        · exact hq

theorem isInitSeg_cons {α : Type} [DecidableEq α] (a b : α) (as bs : List α) :
    isInitSeg (a :: as) (b :: bs) = if a = b then isInitSeg as bs else false := rfl

theorem isInitSeg_iff {α : Type} [DecidableEq α] (a b : List α) :
    isInitSeg a b = true ↔ ∃ t, b = a ++ t := by
  induction a generalizing b with
  | nil => simp [isInitSeg]
  | cons x xs ih =>
    cases b with
    | nil =>
      simp only [isInitSeg]
      constructor
      · intro h; exact absurd h (by simp)
      · rintro ⟨t, ht⟩; simp at ht
    | cons y ys =>
      rw [isInitSeg_cons]
      by_cases h : x = y
      · subst h
        rw [if_pos rfl, ih]
        constructor
        · rintro ⟨t, rfl⟩; exact ⟨t, rfl⟩
        · rintro ⟨t, ht⟩
          injection ht with _ v
          exact ⟨t, v⟩
      · rw [if_neg h]
        constructor
        · intro hc; exact absurd hc (by simp)
        · rintro ⟨t, ht⟩
          injection ht with u _
          exact (h u.symm).elim

theorem isInitSeg_append {α : Type} [DecidableEq α] (a t : List α) :
    isInitSeg a (a ++ t) = true :=
  (isInitSeg_iff a (a ++ t)).mpr ⟨t, rfl⟩

theorem isInitSeg_length {α : Type} [DecidableEq α] {a b : List α}
    (h : isInitSeg a b = true) : a.length ≤ b.length := by
  obtain ⟨t, rfl⟩ := (isInitSeg_iff a b).mp h
  simp

theorem endsWith_length {α : Type} [DecidableEq α] {l pat : List α}
    (h : endsWith l pat = true) : pat.length ≤ l.length := by
  have := isInitSeg_length h
  simpa using this

theorem childName_eq_some (d p : FPath) (x : Name) :
    childName d p = some x ↔ p = d ++ [x] := by
  constructor
  · intro h
    unfold childName at h
    by_cases hi : isInitSeg d p = true
    · obtain ⟨t, rfl⟩ := (isInitSeg_iff d p).mp hi
      rw [if_pos hi, List.drop_left] at h
      cases t with
      | nil => exact absurd h (by simp)
      | cons y ys =>
        cases ys with
        | nil =>
          have : y = x := by simpa using h
          simp [this]
        | cons z zs => exact absurd h (by simp)
    · rw [if_neg hi] at h
      exact absurd h (by simp)
  · rintro rfl
    unfold childName
    rw [if_pos (isInitSeg_append d [x]), List.drop_left]

theorem mem_initsOf (q d : FPath) : q ∈ initsOf d ↔ ∃ t, q ++ t = d := by
  induction d generalizing q with
  | nil =>
    unfold initsOf
    constructor
    · intro h
      have : q = [] := by simpa using h
      exact ⟨[], by simp [this]⟩
    · rintro ⟨t, ht⟩
      cases q with
      | nil => simp
      | cons a as => simp at ht
  | cons x xs ih =>
    unfold initsOf
    rw [List.mem_cons]
    simp only [List.mem_map]
    cases q with
    | nil =>
      constructor
      · intro _; exact ⟨x :: xs, rfl⟩
      · intro _; exact Or.inl rfl
    | cons y ys =>
      constructor
      · rintro (h | ⟨a, ha, heq⟩)
        · exact absurd h (by simp)
        · cases heq
          obtain ⟨t, ht⟩ := (ih ys).mp ha
          exact ⟨t, by simp [ht]⟩
      · rintro ⟨t, ht⟩
        cases ht
        exact Or.inr ⟨ys, (ih ys).mpr ⟨t, rfl⟩, rfl⟩

theorem insortName_perm (n : Name) (l : List Name) :
    List.Perm (insortName n l) (n :: l) := by
  induction l with
  | nil => exact List.Perm.refl _
  | cons m ms ih =>
    unfold insortName
    by_cases h : nameLe n m = true
    · rw [if_pos h]
    · rw [if_neg h]
      exact (ih.cons m).trans (List.Perm.swap n m ms)

theorem insortNames_perm (l : List Name) : List.Perm (insortNames l) l := by
  induction l with
  | nil => exact List.Perm.refl _
  | cons x xs ih =>
    show List.Perm (insortName x (xs.foldr insortName [])) (x :: xs)
    exact (insortName_perm x (xs.foldr insortName [])).trans (ih.cons x)

theorem mem_insortNames (x : Name) (l : List Name) : x ∈ insortNames l ↔ x ∈ l :=
  (insortNames_perm l).mem_iff

theorem nodup_insortNames {l : List Name} (h : l.Nodup) : (insortNames l).Nodup :=
  ((insortNames_perm l).nodup_iff).mpr h

theorem mem_listRpms (fs : FS) (repo : FPath) (n : Name) :
    n ∈ listRpms fs repo ↔ ((fs.lookup (repo ++ [n])).isSome ∧ isRpmName n = true) := by
  unfold listRpms
  rw [mem_insortNames, List.mem_dedup, List.mem_filter, List.mem_filterMap]
  constructor
  · rintro ⟨⟨p, hp, hc⟩, hr⟩
    rw [childName_eq_some] at hc
    subst hc
    exact ⟨(lookupA_isSome_iff _ _).mpr hp, hr⟩
  · rintro ⟨hs, hr⟩
    exact ⟨⟨repo ++ [n], (lookupA_isSome_iff _ _).mp hs, (childName_eq_some _ _ _).mpr rfl⟩, hr⟩

theorem nodup_listRpms (fs : FS) (repo : FPath) : (listRpms fs repo).Nodup :=
  nodup_insortNames (List.nodup_dedup _)

/-! ## Frame lemmas for the migration step -/

theorem ne_of_length_ne {α : Type} {a b : List α} (h : a.length ≠ b.length) : a ≠ b :=
  fun hab => h (by rw [hab])

theorem mkdir_fold_pres (q : FPath) :
    ∀ (L : List FPath) (fs : FS), (fs.lookup q).isSome →
      ((L.foldl (fun acc r => if (acc.lookup r).isSome then acc else acc.set r Node.dir) fs).lookup q)
        = fs.lookup q := by
  intro L
  induction L with
  | nil => intro fs _; rfl
  | cons r rs ih =>
    intro fs h
    rw [List.foldl_cons]
    by_cases hr : (fs.lookup r).isSome
    · rw [if_pos hr]
      exact ih fs h
    · rw [if_neg hr]
      have hqr : ¬ q = r := fun hqr => hr (hqr ▸ h)
      have h2 : ((fs.set r Node.dir).lookup q) = fs.lookup q := by
        rw [FS.lookup_set, if_neg hqr]
      rw [ih _ (by rw [h2]; exact h), h2]

theorem lookup_mkdirParents (fs : FS) (d q : FPath) (h : (fs.lookup q).isSome) :
    (mkdirParents fs d).lookup q = fs.lookup q :=
  mkdir_fold_pres q (initsOf d) fs h

theorem mkdir_fold_add (q : FPath) :
    ∀ (L : List FPath) (fs : FS),
      (((L.foldl (fun acc r => if (acc.lookup r).isSome then acc else acc.set r Node.dir) fs).lookup q).isSome)
        → (fs.lookup q).isSome ∨ q ∈ L := by
  intro L
  induction L with
  | nil => intro fs h; exact Or.inl h
  | cons r rs ih =>
    intro fs h
    rw [List.foldl_cons] at h
    rcases ih _ h with h1 | h1
    · by_cases hr : (fs.lookup r).isSome
      · rw [if_pos hr] at h1
        exact Or.inl h1
      · rw [if_neg hr] at h1
        by_cases hq : q = r
        · exact Or.inr (List.mem_cons.mpr (Or.inl hq))
        · rw [FS.lookup_set, if_neg hq] at h1
          exact Or.inl h1
    · exact Or.inr (List.mem_cons.mpr (Or.inr h1))

theorem mkdirParents_add {fs : FS} {d q : FPath}
    (h : ((mkdirParents fs d).lookup q).isSome) :
    (fs.lookup q).isSome ∨ ∃ t, q ++ t = d := by
  rcases mkdir_fold_add q (initsOf d) fs h with h1 | h1
  · exact Or.inl h1
  · exact Or.inr ((mem_initsOf q d).mp h1)

theorem lookup_hardlink_or_copy (fs : FS) (f t q : FPath) (h : ¬ q = t) :
    (hardlink_or_copy_file fs f t).lookup q = fs.lookup q := by
  cases hr : resolveNode fs resolveFuel f with
  | none => simp only [hardlink_or_copy_file, hr]
  | some nd =>
    cases nd with
    | file i c =>
      simp only [hardlink_or_copy_file, hr]
      by_cases ht : (fs.lookup t).isSome
      · rw [if_pos ht]
        show lookupA q ((t, Node.file fs.nextIno c) :: eraseA t fs.entries) = _
        rw [lookupA_cons, if_neg (fun hh => h hh.symm), lookupA_eraseA, if_neg h]
        rfl
      · rw [if_neg ht, FS.lookup_set, if_neg h]
    | dir => simp only [hardlink_or_copy_file, hr]
    | symlink tg => simp only [hardlink_or_copy_file, hr]

theorem hardlink_or_copy_keepsSome (fs : FS) (f t q : FPath)
    (h : (fs.lookup q).isSome) : ((hardlink_or_copy_file fs f t).lookup q).isSome := by
  by_cases hq : q = t
  · subst hq
    cases hr : resolveNode fs resolveFuel f with
    | none => simp only [hardlink_or_copy_file, hr]; exact h
    | some nd =>
      cases nd with
      | file i c =>
        simp only [hardlink_or_copy_file, hr]
        by_cases ht : (fs.lookup q).isSome
        · rw [if_pos ht]
          show (lookupA q ((q, Node.file fs.nextIno c) :: eraseA q fs.entries)).isSome
          rw [lookupA_cons, if_pos rfl]
          rfl
        · rw [if_neg ht, FS.lookup_set, if_pos rfl]
          rfl
      | dir => simp only [hardlink_or_copy_file, hr]; exact h
      | symlink tg => simp only [hardlink_or_copy_file, hr]; exact h
  · rw [lookup_hardlink_or_copy fs f t q hq]
    exact h

theorem lookup_move_and_symlink (g : FS) (f t q : FPath) :
    (move_and_symlink g f t).lookup q =
      if q = f then some (Node.symlink ⟨false, relpath t f.dropLast⟩)
      else if q = t then (match g.lookup f with | some n => some n | none => g.lookup t)
      else g.lookup q := by
  unfold move_and_symlink symlinkAt rename
  cases hf : g.lookup f with
  | some nd =>
    rw [FS.lookup_set]
    by_cases hqf : q = f
    · rw [if_pos hqf, if_pos hqf]
    · rw [if_neg hqf, if_neg hqf, FS.lookup_set]
      by_cases hqt : q = t
      · rw [if_pos hqt, if_pos hqt]
      · rw [if_neg hqt, if_neg hqt, FS.lookup_erase, if_neg hqf]
  | none =>
    rw [FS.lookup_set]
    by_cases hqf : q = f
    · rw [if_pos hqf, if_pos hqf]
    · rw [if_neg hqf, if_neg hqf]
      by_cases hqt : q = t
      · rw [if_pos hqt, hqt]
      · rw [if_neg hqt]

theorem replicaStep_frame (rpm pd : FPath) (nm : Name) (dR : Bool) (fs2 : FS) (sub : Name)
    (q : FPath) (hq : (fs2.lookup q).isSome) (h2 : ∀ s, q ≠ pd ++ [s, nm]) :
    (replicaStep rpm pd nm dR fs2 sub).lookup q = fs2.lookup q := by
  unfold replicaStep
  cases dR with
  | true => rfl
  | false =>
    have hassoc : (pd ++ [sub]) ++ [nm] = pd ++ [sub, nm] := by simp
    have hne : ¬ q = (pd ++ [sub]) ++ [nm] := by
      rw [hassoc]; exact h2 sub
    show (hardlink_or_copy_file (mkdirParents fs2 (pd ++ [sub])) rpm ((pd ++ [sub]) ++ [nm])).lookup q = _
    rw [lookup_hardlink_or_copy _ _ _ _ hne, lookup_mkdirParents _ _ _ hq]

theorem replicaStep_keepsSome (rpm pd : FPath) (nm : Name) (dR : Bool) (fs2 : FS) (sub : Name)
    (q : FPath) (hq : (fs2.lookup q).isSome) :
    ((replicaStep rpm pd nm dR fs2 sub).lookup q).isSome := by
  unfold replicaStep
  cases dR with
  | true => exact hq
  | false =>
    show ((hardlink_or_copy_file (mkdirParents fs2 (pd ++ [sub])) rpm ((pd ++ [sub]) ++ [nm])).lookup q).isSome
    apply hardlink_or_copy_keepsSome
    rw [lookup_mkdirParents _ _ _ hq]
    exact hq

theorem replicaFold_frame (rpm pd : FPath) (nm : Name) (dR : Bool) (q : FPath)
    (h2 : ∀ s, q ≠ pd ++ [s, nm]) :
    ∀ (L : List Name) (fs2 : FS), (fs2.lookup q).isSome →
      ((L.foldl (replicaStep rpm pd nm dR) fs2).lookup q) = fs2.lookup q := by
  intro L
  induction L with
  | nil => intro fs2 _; rfl
  | cons s ss ih =>
    intro fs2 hq
    rw [List.foldl_cons,
        ih _ (replicaStep_keepsSome rpm pd nm dR fs2 s q hq),
        replicaStep_frame rpm pd nm dR fs2 s q hq h2]

theorem replicaFold_keepsSome (rpm pd : FPath) (nm : Name) (dR : Bool) (q : FPath) :
    ∀ (L : List Name) (fs2 : FS), (fs2.lookup q).isSome →
      (((L.foldl (replicaStep rpm pd nm dR) fs2).lookup q)).isSome := by
  intro L
  induction L with
  | nil => intro fs2 hq; exact hq
  | cons s ss ih =>
    intro fs2 hq
    rw [List.foldl_cons]
    exact ih _ (replicaStep_keepsSome rpm pd nm dR fs2 s q hq)

theorem move_and_symlink_keepsSome (g : FS) (f t q : FPath) (hq : (g.lookup q).isSome) :
    ((move_and_symlink g f t).lookup q).isSome := by
  rw [lookup_move_and_symlink]
  by_cases hqf : q = f
  · rw [if_pos hqf]; rfl
  · rw [if_neg hqf]
    by_cases hqt : q = t
    · rw [if_pos hqt]
      cases hf : g.lookup f with
      | some n => rfl
      | none =>
        subst hqt
        exact hq
    · rw [if_neg hqt]; exact hq

theorem migrate_rpm_frame (repo pd : FPath) (subs : List Name) (dR : Bool) (fs : FS) (nm : Name)
    (q : FPath) (hq : (fs.lookup q).isSome) (h1 : q ≠ repo ++ [nm])
    (h2 : ∀ s, q ≠ pd ++ [s, nm]) :
    (migrate_rpm repo pd subs dR fs nm).lookup q = fs.lookup q := by
  unfold migrate_rpm
  by_cases hsym : isSymlinkAt fs (repo ++ [nm]) = true
  · rw [if_pos hsym]
  · rw [if_neg hsym]
    by_cases hc : isCondorRpm nm = true
    · simp only [hc, if_true]
      cases dR with
      | true =>
        simp only [if_true]
        exact replicaFold_frame _ _ _ _ _ h2 _ _ hq
      | false =>
        simp only [Bool.false_eq_true, if_false]
        have hdf : (pd ++ [subs.headD []]) ++ [nm] = pd ++ [subs.headD [], nm] := by simp
        have hstep : (move_and_symlink (mkdirParents fs (pd ++ [subs.headD []]))
            (repo ++ [nm]) ((pd ++ [subs.headD []]) ++ [nm])).lookup q = fs.lookup q := by
          rw [lookup_move_and_symlink, if_neg h1, if_neg (hdf ▸ h2 (subs.headD [])),
              lookup_mkdirParents _ _ _ hq]
        rw [replicaFold_frame _ _ _ _ _ h2 _ _ (by rw [hstep]; exact hq), hstep]
    · simp only [hc, Bool.false_eq_true, if_false]
      cases dR with
      | true => simp only [if_true]
      | false =>
        simp only [Bool.false_eq_true, if_false]
        have hdf : (pd ++ [bucketFor nm]) ++ [nm] = pd ++ [bucketFor nm, nm] := by simp
        rw [lookup_move_and_symlink, if_neg h1, if_neg (hdf ▸ h2 (bucketFor nm)),
            lookup_mkdirParents _ _ _ hq]

theorem migrate_rpm_keepsSome (repo pd : FPath) (subs : List Name) (dR : Bool) (fs : FS)
    (nm : Name) (q : FPath) (hq : (fs.lookup q).isSome) :
    ((migrate_rpm repo pd subs dR fs nm).lookup q).isSome := by
  unfold migrate_rpm
  by_cases hsym : isSymlinkAt fs (repo ++ [nm]) = true
  · rw [if_pos hsym]; exact hq
  · rw [if_neg hsym]
    by_cases hc : isCondorRpm nm = true
    · simp only [hc, if_true]
      cases dR with
      | true =>
        simp only [if_true]
        exact replicaFold_keepsSome _ _ _ _ _ _ _ hq
      | false =>
        simp only [Bool.false_eq_true, if_false]
        apply replicaFold_keepsSome
        apply move_and_symlink_keepsSome
        rw [lookup_mkdirParents _ _ _ hq]
        exact hq
    · simp only [hc, Bool.false_eq_true, if_false]
      cases dR with
      | true => simp only [if_true]; exact hq
      | false =>
        simp only [Bool.false_eq_true, if_false]
        apply move_and_symlink_keepsSome
        rw [lookup_mkdirParents _ _ _ hq]
        exact hq

theorem migrate_rpm_own_symlink (repo pd : FPath) (subs : List Name) (fs : FS) (nm : Name)
    (hlen : repo.length ≤ pd.length) :
    isSymlinkAt (migrate_rpm repo pd subs false fs nm) (repo ++ [nm]) = true := by
  have hne : ∀ s : Name, (repo ++ [nm] : FPath) ≠ pd ++ [s, nm] := by
    intro s
    apply ne_of_length_ne
    simp only [List.length_append, List.length_cons, List.length_nil]
    omega
  unfold migrate_rpm
  by_cases hsym : isSymlinkAt fs (repo ++ [nm]) = true
  · rw [if_pos hsym]; exact hsym
  · rw [if_neg hsym]
    by_cases hc : isCondorRpm nm = true
    · simp only [hc, if_true, Bool.false_eq_true, if_false]
      have hstep : (move_and_symlink (mkdirParents fs (pd ++ [subs.headD []]))
          (repo ++ [nm]) ((pd ++ [subs.headD []]) ++ [nm])).lookup (repo ++ [nm])
          = some (Node.symlink ⟨false, relpath ((pd ++ [subs.headD []]) ++ [nm]) (repo ++ [nm]).dropLast⟩) := by
        rw [lookup_move_and_symlink, if_pos rfl]
      have hfold := replicaFold_frame (repo ++ [nm]) pd nm false (repo ++ [nm]) hne
        (subs.drop 1) _ (by rw [hstep]; rfl)
      unfold isSymlinkAt
      rw [hfold, hstep]
    · simp only [hc, Bool.false_eq_true, if_false]
      unfold isSymlinkAt
      rw [lookup_move_and_symlink, if_pos rfl]

theorem append_single_ne_append_pair {r p : FPath} {n s m : Name} (hnm : n ≠ m) :
    r ++ [n] ≠ p ++ [s, m] := by
  intro h
  have h1 : (r ++ [n]).getLast? = (p ++ [s, m]).getLast? := by rw [h]
  have h2 : (p ++ [s, m] : FPath) = (p ++ [s]) ++ [m] := by simp
  rw [h2, List.getLast?_concat, List.getLast?_concat] at h1
  exact hnm (Option.some.inj h1)

theorem replicaFold_dry (rpm pd : FPath) (nm : Name) :
    ∀ (L : List Name) (fs2 : FS), L.foldl (replicaStep rpm pd nm true) fs2 = fs2 := by
  intro L
  induction L with
  | nil => intro fs2; rfl
  | cons s ss ih =>
    intro fs2
    rw [List.foldl_cons]
    show ss.foldl (replicaStep rpm pd nm true) fs2 = fs2
    exact ih fs2

theorem replicaFold_add (rpm pd : FPath) (nm : Name) :
    ∀ (L : List Name) (fs2 : FS) (q : FPath),
      ((L.foldl (replicaStep rpm pd nm false) fs2).lookup q).isSome →
      (fs2.lookup q).isSome ∨ ∃ s ∈ L, q = pd ++ [s, nm] ∨ ∃ t, q ++ t = pd ++ [s] := by
  intro L
  induction L with
  | nil => intro fs2 q h; exact Or.inl h
  | cons s ss ih =>
    intro fs2 q h
    rw [List.foldl_cons] at h
    rcases ih _ _ h with h1 | ⟨s', hs', hd⟩
    · by_cases hq : q = (pd ++ [s]) ++ [nm]
      · refine Or.inr ⟨s, List.mem_cons_self s ss, Or.inl ?_⟩
        rw [hq]; simp
      · unfold replicaStep at h1
        simp only [Bool.false_eq_true, if_false] at h1
        rw [lookup_hardlink_or_copy _ _ _ _ hq] at h1
        rcases mkdirParents_add h1 with h2 | ⟨t, ht⟩
        · exact Or.inl h2
        · exact Or.inr ⟨s, List.mem_cons_self s ss, Or.inr ⟨t, ht⟩⟩
    · exact Or.inr ⟨s', List.mem_cons.mpr (Or.inr hs'), hd⟩

theorem migrate_rpm_add (repo pd : FPath) (subs : List Name) (dR : Bool) (fs : FS)
    (nm : Name) (q : FPath)
    (h : ((migrate_rpm repo pd subs dR fs nm).lookup q).isSome) :
    (fs.lookup q).isSome ∨ q = repo ++ [nm] ∨ (∃ s, q = pd ++ [s, nm]) ∨
      ∃ b, (b = subs.headD [] ∨ b ∈ subs ∨ b = bucketFor nm) ∧ ∃ t, q ++ t = pd ++ [b] := by
  unfold migrate_rpm at h
  by_cases hsym : isSymlinkAt fs (repo ++ [nm]) = true
  · rw [if_pos hsym] at h
    exact Or.inl h
  · rw [if_neg hsym] at h
    by_cases hc : isCondorRpm nm = true
    · simp only [hc, if_true] at h
      cases dR with
      | true =>
        simp only [if_true] at h
        rw [replicaFold_dry] at h
        exact Or.inl h
      | false =>
        simp only [Bool.false_eq_true, if_false] at h
        rcases replicaFold_add _ _ _ _ _ _ h with h1 | ⟨s', hs', hd⟩
        · by_cases hqf : q = repo ++ [nm]
          · exact Or.inr (Or.inl hqf)
          · by_cases hqt : q = (pd ++ [subs.headD []]) ++ [nm]
            · refine Or.inr (Or.inr (Or.inl ⟨subs.headD [], ?_⟩))
              rw [hqt]; simp
            · rw [lookup_move_and_symlink, if_neg hqf, if_neg hqt] at h1
              rcases mkdirParents_add h1 with h2 | ⟨t, ht⟩
              · exact Or.inl h2
              · exact Or.inr (Or.inr (Or.inr ⟨subs.headD [], Or.inl rfl, t, ht⟩))
        · rcases hd with hd | ⟨t, ht⟩
          · exact Or.inr (Or.inr (Or.inl ⟨s', hd⟩))
          · exact Or.inr (Or.inr (Or.inr ⟨s', Or.inr (Or.inl (List.drop_subset 1 subs hs')), t, ht⟩))
    · simp only [hc, Bool.false_eq_true, if_false] at h
      cases dR with
      | true =>
        simp only [if_true] at h
        exact Or.inl h
      | false =>
        simp only [Bool.false_eq_true, if_false] at h
        by_cases hqf : q = repo ++ [nm]
        · exact Or.inr (Or.inl hqf)
        · by_cases hqt : q = (pd ++ [bucketFor nm]) ++ [nm]
          · refine Or.inr (Or.inr (Or.inl ⟨bucketFor nm, ?_⟩))
            rw [hqt]; simp
          · rw [lookup_move_and_symlink, if_neg hqf, if_neg hqt] at h
            rcases mkdirParents_add h with h2 | ⟨t, ht⟩
            · exact Or.inl h2
            · exact Or.inr (Or.inr (Or.inr ⟨bucketFor nm, Or.inr (Or.inr rfl), t, ht⟩))

theorem runFold_frame (repo pd : FPath) (subs : List Name) (dR : Bool) :
    ∀ (L : List Name) (fs : FS) (q : FPath), (fs.lookup q).isSome →
      (∀ n ∈ L, q ≠ repo ++ [n] ∧ ∀ s, q ≠ pd ++ [s, n]) →
      ((L.foldl (migrate_rpm repo pd subs dR) fs).lookup q) = fs.lookup q := by
  intro L
  induction L with
  | nil => intro fs q _ _; rfl
  | cons n ns ih =>
    intro fs q hq hne
    rw [List.foldl_cons]
    have hn := hne n (List.mem_cons_self n ns)
    have hstep : (migrate_rpm repo pd subs dR fs n).lookup q = fs.lookup q :=
      migrate_rpm_frame repo pd subs dR fs n q hq hn.1 hn.2
    rw [ih _ _ (by rw [hstep]; exact hq)
        (fun m hm => hne m (List.mem_cons.mpr (Or.inr hm))), hstep]

theorem runFold_keepsSome (repo pd : FPath) (subs : List Name) (dR : Bool) :
    ∀ (L : List Name) (fs : FS) (q : FPath), (fs.lookup q).isSome →
      (((L.foldl (migrate_rpm repo pd subs dR) fs).lookup q)).isSome := by
  intro L
  induction L with
  | nil => intro fs q hq; exact hq
  | cons n ns ih =>
    intro fs q hq
    rw [List.foldl_cons]
    exact ih _ _ (migrate_rpm_keepsSome repo pd subs dR fs n q hq)

theorem runFold_symlinks (repo pd : FPath) (subs : List Name)
    (hlen : repo.length ≤ pd.length) :
    ∀ (L : List Name) (fs : FS), L.Nodup →
      ∀ n ∈ L, isSymlinkAt (L.foldl (migrate_rpm repo pd subs false) fs) (repo ++ [n]) = true := by
  intro L
  induction L with
  | nil => intro fs _ n hn; exact absurd hn (by simp)
  | cons n0 ns ih =>
    intro fs hnd n hn
    rw [List.foldl_cons]
    have hnotmem : n0 ∉ ns := (List.nodup_cons.mp hnd).1
    rcases List.mem_cons.mp hn with rfl | hmem
    · have hown := migrate_rpm_own_symlink repo pd subs fs n hlen
      have hsome : ((migrate_rpm repo pd subs false fs n).lookup (repo ++ [n])).isSome := by
        unfold isSymlinkAt at hown
        cases hl : (migrate_rpm repo pd subs false fs n).lookup (repo ++ [n]) with
        | none => rw [hl] at hown; exact absurd hown (by simp)
        | some nd => rfl
      have hfr := runFold_frame repo pd subs false ns (migrate_rpm repo pd subs false fs n)
        (repo ++ [n]) hsome ?_
      · unfold isSymlinkAt
        unfold isSymlinkAt at hown
        rw [hfr]
        exact hown
      · intro m hm
        have hne : n ≠ m := fun h => hnotmem (h ▸ hm)
        constructor
        · intro hc
          exact hne (by
            have := List.append_cancel_left hc
            simpa using this)
        · intro s
          exact append_single_ne_append_pair hne
    · exact ih _ (List.nodup_cons.mp hnd).2 n hmem

theorem isRpmName_singleton (x : Char) : isRpmName [x] = false := by
  cases h : isRpmName [x]
  · rfl
  · exfalso
    have h1 : rpmTail.length ≤ ([x] : Name).length := endsWith_length h
    have h2 : rpmTail.length = 4 := by decide
    rw [h2] at h1
    simp at h1

theorem bucketFor_not_rpm (n : Name) : isRpmName (bucketFor n) = false := by
  cases n with
  | nil => decide
  | cons c cs =>
    show isRpmName (if c ∈ digitChars then ['0'] else [c.toLower]) = false
    by_cases h : c ∈ digitChars
    · rw [if_pos h]
      exact isRpmName_singleton '0'
    · rw [if_neg h]
      exact isRpmName_singleton c.toLower

theorem condor_subdirs_cases (repo : FPath) :
    get_condor_package_subdirs repo = ["condor-release".toList, "condor-update".toList] ∨
    get_condor_package_subdirs repo = ["condor-daily".toList] ∨
    get_condor_package_subdirs repo
      = ["condor-release".toList, "condor-update".toList, "condor-daily".toList] := by
  unfold get_condor_package_subdirs
  split_ifs with h1 h2
  · exact Or.inl rfl
  · exact Or.inr (Or.inl rfl)
  · exact Or.inr (Or.inr rfl)

theorem condor_subdir_not_rpm (repo : FPath) (b : Name)
    (hb : b = (get_condor_package_subdirs repo).headD []
      ∨ b ∈ get_condor_package_subdirs repo) :
    isRpmName b = false := by
  rcases condor_subdirs_cases repo with h | h | h <;> rw [h] at hb
  · have hd : b = "condor-release".toList ∨ b = "condor-update".toList := by
      rcases hb with rfl | hb
      · exact Or.inl rfl
      · simpa using hb
    rcases hd with rfl | rfl <;> decide
  · have hd : b = "condor-daily".toList := by
      rcases hb with rfl | hb
      · rfl
      · simpa using hb
    subst hd; decide
  · have hd : b = "condor-release".toList ∨ b = "condor-update".toList
        ∨ b = "condor-daily".toList := by
      rcases hb with rfl | hb
      · exact Or.inl rfl
      · simpa using hb
    rcases hd with rfl | rfl | rfl <;> decide

theorem runFold_add (repo pd : FPath) (subs : List Name) (dR : Bool) :
    ∀ (L : List Name) (fs : FS) (q : FPath),
      ((L.foldl (migrate_rpm repo pd subs dR) fs).lookup q).isSome →
      (fs.lookup q).isSome ∨ ∃ m ∈ L, q = repo ++ [m] ∨ (∃ s, q = pd ++ [s, m]) ∨
        ∃ b, (b = subs.headD [] ∨ b ∈ subs ∨ b = bucketFor m) ∧ ∃ t, q ++ t = pd ++ [b] := by
  intro L
  induction L with
  | nil => intro fs q h; exact Or.inl h
  | cons m ms ih =>
    intro fs q h
    rw [List.foldl_cons] at h
    rcases ih _ _ h with h1 | ⟨m', hm', hd⟩
    · rcases migrate_rpm_add repo pd subs dR fs m q h1 with h2 | h2
      · exact Or.inl h2
      · exact Or.inr ⟨m, List.mem_cons_self m ms, h2⟩
    · exact Or.inr ⟨m', List.mem_cons.mpr (Or.inr hm'), hd⟩

theorem runFold_new_rpm (repo pd : FPath) (subs : List Name) (dR : Bool)
    (L : List Name) (fs : FS) (n : Name)
    (hpd : pd = repo ++ ["Packages".toList] ∨ pd = repo.dropLast ++ ["Packages".toList])
    (hsubs : subs = get_condor_package_subdirs repo)
    (hsome : ((L.foldl (migrate_rpm repo pd subs dR) fs).lookup (repo ++ [n])).isSome)
    (hrpm : isRpmName n = true) :
    (fs.lookup (repo ++ [n])).isSome ∨ n ∈ L := by
  rcases runFold_add repo pd subs dR L fs (repo ++ [n]) hsome with h1 | ⟨m, hm, hd⟩
  · exact Or.inl h1
  rcases hd with hd | ⟨s, hd⟩ | ⟨b, hbcond, t, ht⟩
  · have : n = m := by
      have h2 := List.append_cancel_left hd
      simpa using h2
    exact Or.inr (this ▸ hm)
  · exfalso
    rcases hpd with rfl | hpdr
    · have h2 : ([n] : FPath) = ["Packages".toList, s, m] := by
        refine List.append_cancel_left (?_ : repo ++ _ = repo ++ _)
        simpa [List.append_assoc] using hd
      simp at h2
    · rcases List.eq_nil_or_concat repo with hre | ⟨r', lst, hre⟩
      · subst hre
        rw [hpdr] at hd
        have h2 : ([n] : FPath) = ["Packages".toList, s, m] := by simpa using hd
        simp at h2
      · rw [List.concat_eq_append] at hre
        subst hre
        rw [hpdr] at hd
        have h2 : ([lst, n] : FPath) = ["Packages".toList, s, m] := by
          refine List.append_cancel_left (?_ : r' ++ _ = r' ++ _)
          simpa [List.append_assoc] using hd
        simp at h2
  · exfalso
    have hbrpm : isRpmName b = false := by
      rcases hbcond with hb | hb | hb
      · exact condor_subdir_not_rpm repo b (Or.inl (hsubs ▸ hb))
      · exact condor_subdir_not_rpm repo b (Or.inr (hsubs ▸ hb))
      · rw [hb]; exact bucketFor_not_rpm m
    rcases hpd with rfl | hpdr
    · have h2 : (n :: t : FPath) = ["Packages".toList, b] := by
        refine List.append_cancel_left (?_ : repo ++ _ = repo ++ _)
        simpa [List.append_assoc] using ht
      have hn : n = "Packages".toList := by
        injection h2
      rw [hn] at hrpm
      exact absurd hrpm (by decide)
    · rcases List.eq_nil_or_concat repo with hre | ⟨r', lst, hre⟩
      · subst hre
        rw [hpdr] at ht
        have h2 : (n :: t : FPath) = ["Packages".toList, b] := by simpa using ht
        have hn : n = "Packages".toList := by
          injection h2
        rw [hn] at hrpm
        exact absurd hrpm (by decide)
      · rw [List.concat_eq_append] at hre
        subst hre
        rw [hpdr] at ht
        have h2 : (lst :: n :: t : FPath) = ["Packages".toList, b] := by
          refine List.append_cancel_left (?_ : r' ++ _ = r' ++ _)
          simpa [List.append_assoc] using ht
        have h3 : (n :: t : FPath) = [b] := by
          injection h2
        have hn : n = b := by injection h3
        rw [hn, hbrpm] at hrpm
        exact absurd hrpm (by simp)

theorem runFold_id_of_symlinks (repo pd : FPath) (subs : List Name) (dR : Bool) :
    ∀ (L : List Name) (fs : FS), (∀ n ∈ L, isSymlinkAt fs (repo ++ [n]) = true) →
      L.foldl (migrate_rpm repo pd subs dR) fs = fs := by
  intro L
  induction L with
  | nil => intro fs _; rfl
  | cons n ns ih =>
    intro fs h
    rw [List.foldl_cons]
    have hstep : migrate_rpm repo pd subs dR fs n = fs := by
      unfold migrate_rpm
      rw [if_pos (h n (List.mem_cons_self n ns))]
    rw [hstep]
    exact ih fs (fun m hm => h m (List.mem_cons.mpr (Or.inr hm)))

theorem hlen_of_hpd {repo pd : FPath}
    (hpd : pd = repo ++ ["Packages".toList] ∨ pd = repo.dropLast ++ ["Packages".toList]) :
    repo.length ≤ pd.length := by
  rcases hpd with rfl | rfl
  · simp
  · simp only [List.length_append, List.length_dropLast, List.length_cons, List.length_nil]
    omega

theorem c2core (fs : FS) (repo pd : FPath)
    (hpd : pd = repo ++ ["Packages".toList] ∨ pd = repo.dropLast ++ ["Packages".toList])
    (hleg : (listRpms fs repo).any isLegacy = false) :
    migrate_one_repo
        ((listRpms fs repo).foldl
          (migrate_rpm repo pd (get_condor_package_subdirs repo) false) fs) repo pd false
      = ((listRpms fs repo).foldl
          (migrate_rpm repo pd (get_condor_package_subdirs repo) false) fs, true) := by
  have hlen := hlen_of_hpd hpd
  have hsub : ∀ n ∈ listRpms ((listRpms fs repo).foldl
      (migrate_rpm repo pd (get_condor_package_subdirs repo) false) fs) repo,
      n ∈ listRpms fs repo := by
    intro n hn
    obtain ⟨hsome1, hrpm⟩ := (mem_listRpms _ _ _).mp hn
    rcases runFold_new_rpm repo pd (get_condor_package_subdirs repo) false
        (listRpms fs repo) fs n hpd rfl hsome1 hrpm with h1 | h1
    · exact (mem_listRpms _ _ _).mpr ⟨h1, hrpm⟩
    · exact h1
  have hleg2 : (listRpms ((listRpms fs repo).foldl
      (migrate_rpm repo pd (get_condor_package_subdirs repo) false) fs) repo).any isLegacy
        = false := by
    cases h2 : (listRpms ((listRpms fs repo).foldl
        (migrate_rpm repo pd (get_condor_package_subdirs repo) false) fs) repo).any isLegacy
    · rfl
    · obtain ⟨n, hn, hl⟩ := List.any_eq_true.mp h2
      have : (listRpms fs repo).any isLegacy = true :=
        List.any_eq_true.mpr ⟨n, hsub n hn, hl⟩
      rw [this] at hleg
      exact absurd hleg (by simp)
  have hsyms : ∀ n ∈ listRpms ((listRpms fs repo).foldl
      (migrate_rpm repo pd (get_condor_package_subdirs repo) false) fs) repo,
      isSymlinkAt ((listRpms fs repo).foldl
        (migrate_rpm repo pd (get_condor_package_subdirs repo) false) fs) (repo ++ [n])
        = true := by
    intro n hn
    exact runFold_symlinks repo pd (get_condor_package_subdirs repo) hlen
      (listRpms fs repo) fs (nodup_listRpms fs repo) n (hsub n hn)
  unfold migrate_one_repo
  rw [if_neg (by rw [hleg2]; simp), runFold_id_of_symlinks _ _ _ _ _ _ hsyms]

/-! ## Correctness of relative-path computation -/

/-- Paths free of `..` and `.` components (every path the migration scripts
are pointed at). -/
abbrev noDots (p : FPath) : Prop := ∀ x ∈ p, x ≠ dotdot ∧ x ≠ dotName

theorem foldl_normStep_noDots (q : FPath) (hq : noDots q) :
    ∀ acc, q.foldl normStep acc = acc ++ q := by
  induction q with
  | nil => intro acc; simp
  | cons x xs ih =>
    intro acc
    have hx := hq x (List.mem_cons_self x xs)
    have h1 : normStep acc x = acc ++ [x] := by
      unfold normStep
      rw [if_neg hx.1, if_neg hx.2]
    rw [List.foldl_cons, h1,
        ih (fun y hy => hq y (List.mem_cons.mpr (Or.inr hy))) (acc ++ [x])]
    simp

theorem foldl_normStep_dotdots (k : Nat) :
    ∀ acc : FPath, (List.replicate k dotdot).foldl normStep acc
      = acc.take (acc.length - k) := by
  induction k with
  | zero =>
    intro acc
    simp
  | succ k ih =>
    intro acc
    have h1 : normStep acc dotdot = acc.dropLast := by
      unfold normStep
      rw [if_pos rfl]
    rw [List.replicate_succ, List.foldl_cons, h1, ih acc.dropLast]
    have hlen1 : acc.dropLast.length = acc.length - 1 := by
      simp
    rw [hlen1, List.dropLast_eq_take, List.take_take]
    congr 1
    omega

theorem commonLen_le_left : ∀ a b : FPath, commonLen a b ≤ a.length := by
  intro a
  induction a with
  | nil => intro b; cases b <;> simp [commonLen]
  | cons x xs ih =>
    intro b
    cases b with
    | nil => simp [commonLen]
    | cons y ys =>
      unfold commonLen
      by_cases h : x = y
      · rw [if_pos h]
        simp only [List.length_cons]
        exact Nat.add_le_add_right (ih ys) 1
      · rw [if_neg h]
        simp

theorem commonLen_le_right : ∀ a b : FPath, commonLen a b ≤ b.length := by
  intro a
  induction a with
  | nil => intro b; cases b <;> simp [commonLen]
  | cons x xs ih =>
    intro b
    cases b with
    | nil => simp [commonLen]
    | cons y ys =>
      unfold commonLen
      by_cases h : x = y
      · rw [if_pos h]
        simp only [List.length_cons]
        exact Nat.add_le_add_right (ih ys) 1
      · rw [if_neg h]
        simp

theorem take_commonLen_eq : ∀ a b : FPath, a.take (commonLen a b) = b.take (commonLen a b) := by
  intro a
  induction a with
  | nil => intro b; cases b <;> simp [commonLen]
  | cons x xs ih =>
    intro b
    cases b with
    | nil => simp [commonLen]
    | cons y ys =>
      unfold commonLen
      by_cases h : x = y
      · rw [if_pos h]
        subst h
        simp only [List.take_succ_cons]
        rw [ih ys]
      · rw [if_neg h]
        simp

theorem normPath_relpath (topath start : FPath) (hs : noDots start) (ht : noDots topath) :
    normPath (start ++ relpath topath start) = topath := by
  have hrel : relpath topath start =
      if (List.replicate (start.length - commonLen topath start) dotdot
          ++ topath.drop (commonLen topath start)) = [] then [dotName]
      else (List.replicate (start.length - commonLen topath start) dotdot
          ++ topath.drop (commonLen topath start)) := rfl
  by_cases hr : (List.replicate (start.length - commonLen topath start) dotdot
      ++ topath.drop (commonLen topath start)) = []
  · obtain ⟨h1, h2⟩ := List.append_eq_nil.mp hr
    have hk : start.length - commonLen topath start = 0 := by
      have := congrArg List.length h1
      simpa using this
    have hk2 : topath.length - commonLen topath start = 0 := by
      have := congrArg List.length h2
      simpa using this
    have hceq1 : commonLen topath start = start.length :=
      Nat.le_antisymm (commonLen_le_right topath start) (by omega)
    have hceq2 : commonLen topath start = topath.length :=
      Nat.le_antisymm (commonLen_le_left topath start) (by omega)
    have e1 : topath.take (commonLen topath start) = topath := by
      rw [hceq2]; exact List.take_length topath
    have e2 : start.take (commonLen topath start) = start := by
      rw [hceq1]; exact List.take_length start
    have hst : start = topath := by
      rw [← e2, take_commonLen_eq topath start |>.symm, e1]
    rw [hrel, if_pos hr]
    unfold normPath
    rw [List.foldl_append, foldl_normStep_noDots start hs []]
    have hdn : normStep ([] ++ start) dotName = [] ++ start := by
      unfold normStep
      rw [if_neg (by decide), if_pos rfl]
    show normStep ([] ++ start) dotName = topath
    rw [hdn]
    simpa using hst
  · rw [hrel, if_neg hr]
    unfold normPath
    rw [← List.append_assoc, List.foldl_append, List.foldl_append,
        foldl_normStep_noDots start hs [], foldl_normStep_dotdots]
    have hc : ([] ++ start : FPath).length
        - (start.length - commonLen topath start) = commonLen topath start := by
      have := commonLen_le_right topath start
      simp only [List.nil_append]
      omega
    rw [hc]
    have hdropnd : noDots (topath.drop (commonLen topath start)) :=
      fun x hx => ht x (List.drop_subset _ _ hx)
    rw [foldl_normStep_noDots _ hdropnd]
    show ([] ++ start).take (commonLen topath start) ++ topath.drop (commonLen topath start) = topath
    rw [List.nil_append, ← take_commonLen_eq topath start, List.take_append_drop]

/-! ## Placement of moved files and replicas -/

theorem resolveNode_succ (fs : FS) (fuel : Nat) (p : FPath) :
    resolveNode fs (fuel + 1) p =
      match fs.lookup p with
      | some (Node.symlink t) =>
          resolveNode fs fuel
            (if t.isAbs then normPath t.comps else normPath (p.dropLast ++ t.comps))
      | r => r := rfl

theorem isSymlinkAt_false_of_file {fs : FS} {p : FPath} {i c : Nat}
    (h : fs.lookup p = some (Node.file i c)) : ¬ isSymlinkAt fs p = true := by
  unfold isSymlinkAt
  rw [h]
  simp

theorem resolve_through_symlink (fs : FS) (repo destfile : FPath) (nm : Name) (i c : Nat)
    (hrepoND : noDots repo) (hdfND : noDots destfile)
    (hsym : fs.lookup (repo ++ [nm]) = some (Node.symlink ⟨false, relpath destfile repo⟩))
    (hdf : fs.lookup destfile = some (Node.file i c)) :
    resolveNode fs resolveFuel (repo ++ [nm]) = some (Node.file i c) := by
  have h64 : resolveFuel = 63 + 1 := rfl
  rw [h64, resolveNode_succ, hsym]
  show resolveNode fs 63 (normPath ((repo ++ [nm]).dropLast ++ relpath destfile repo)) = _
  have hdl : (repo ++ [nm]).dropLast = repo := by simp
  rw [hdl, normPath_relpath destfile repo hrepoND hdfND]
  have h63 : (63 : Nat) = 62 + 1 := rfl
  rw [h63, resolveNode_succ, hdf]

theorem hardlink_post (g : FS) (f t : FPath) (i c : Nat)
    (hres : resolveNode g resolveFuel f = some (Node.file i c)) :
    ∃ j, (hardlink_or_copy_file g f t).lookup t = some (Node.file j c) := by
  simp only [hardlink_or_copy_file, hres]
  by_cases ht : (g.lookup t).isSome
  · rw [if_pos ht]
    refine ⟨g.nextIno, ?_⟩
    show lookupA t ((t, Node.file g.nextIno c) :: eraseA t g.entries) = _
    rw [lookupA_cons, if_pos rfl]
  · rw [if_neg ht]
    exact ⟨i, by rw [FS.lookup_set, if_pos rfl]⟩

theorem replicaFold_pres_pair (pd : FPath) (nm : Name) (rpm : FPath) (sStar : Name) :
    ∀ (L : List Name) (g : FS), sStar ∉ L → (g.lookup (pd ++ [sStar, nm])).isSome →
      ((L.foldl (replicaStep rpm pd nm false) g).lookup (pd ++ [sStar, nm]))
        = g.lookup (pd ++ [sStar, nm]) := by
  intro L
  induction L with
  | nil => intro g _ _; rfl
  | cons s ss ih =>
    intro g hmem hq
    rw [List.foldl_cons]
    have hss : s ≠ sStar := fun h => hmem (h ▸ List.mem_cons_self s ss)
    have hne : ¬ (pd ++ [sStar, nm] : FPath) = (pd ++ [s]) ++ [nm] := by
      intro h
      have h2 : ([sStar, nm] : FPath) = [s, nm] := by
        refine List.append_cancel_left (?_ : pd ++ _ = pd ++ _)
        simpa [List.append_assoc] using h
      have : sStar = s := by injection h2
      exact hss this.symm
    have hstep : (replicaStep rpm pd nm false g s).lookup (pd ++ [sStar, nm])
        = g.lookup (pd ++ [sStar, nm]) := by
      show (hardlink_or_copy_file (mkdirParents g (pd ++ [s])) rpm ((pd ++ [s]) ++ [nm])).lookup _ = _
      rw [lookup_hardlink_or_copy _ _ _ _ hne, lookup_mkdirParents _ _ _ hq]
    rw [ih _ (fun h => hmem (List.mem_cons.mpr (Or.inr h))) (by rw [hstep]; exact hq), hstep]

theorem headD_not_mem_drop (subs : List Name) (h : subs.Nodup) :
    subs.headD [] ∉ subs.drop 1 := by
  cases subs with
  | nil => simp
  | cons s0 ss =>
    simp only [List.headD_cons, List.drop_succ_cons, List.drop_zero]
    exact (List.nodup_cons.mp h).1

theorem rpm_not_dots {n : Name} (h : isRpmName n = true) : n ≠ dotdot ∧ n ≠ dotName := by
  constructor
  · rintro rfl
    revert h
    decide
  · rintro rfl
    revert h
    decide

theorem replicaFold_post (repo pd destfile : FPath) (nm : Name) (i c : Nat)
    (hrepoND : noDots repo) (hdfND : noDots destfile) (hlen : repo.length ≤ pd.length) :
    ∀ (L : List Name) (g : FS), L.Nodup →
      (∀ s ∈ L, destfile ≠ pd ++ [s, nm]) →
      g.lookup (repo ++ [nm]) = some (Node.symlink ⟨false, relpath destfile repo⟩) →
      g.lookup destfile = some (Node.file i c) →
      ∀ s ∈ L, ∃ j,
        ((L.foldl (replicaStep (repo ++ [nm]) pd nm false) g).lookup (pd ++ [s, nm]))
          = some (Node.file j c) := by
  intro L
  induction L with
  | nil => intro g _ _ _ _ s hs; exact absurd hs (by simp)
  | cons s0 ss ih =>
    intro g hnd hdfne hsym hdf s hs
    rw [List.foldl_cons]
    have hrpm_ne : ∀ sub : Name, (repo ++ [nm] : FPath) ≠ pd ++ [sub, nm] := by
      intro sub
      apply ne_of_length_ne
      simp only [List.length_append, List.length_cons, List.length_nil]
      omega
    have hg' : (mkdirParents g (pd ++ [s0])).lookup (repo ++ [nm])
        = some (Node.symlink ⟨false, relpath destfile repo⟩) := by
      rw [lookup_mkdirParents _ _ _ (by rw [hsym]; rfl)]
      exact hsym
    have hg'' : (mkdirParents g (pd ++ [s0])).lookup destfile = some (Node.file i c) := by
      rw [lookup_mkdirParents _ _ _ (by rw [hdf]; rfl)]
      exact hdf
    have hres : resolveNode (mkdirParents g (pd ++ [s0])) resolveFuel (repo ++ [nm])
        = some (Node.file i c) :=
      resolve_through_symlink _ repo destfile nm i c hrepoND hdfND hg' hg''
    have hassoc : ((pd ++ [s0]) ++ [nm] : FPath) = pd ++ [s0, nm] := by simp
    have hstepdef : replicaStep (repo ++ [nm]) pd nm false g s0
        = hardlink_or_copy_file (mkdirParents g (pd ++ [s0])) (repo ++ [nm])
            ((pd ++ [s0]) ++ [nm]) := rfl
    obtain ⟨j0, hj0⟩ := hardlink_post (mkdirParents g (pd ++ [s0])) (repo ++ [nm])
        ((pd ++ [s0]) ++ [nm]) i c hres
    have hg1sym : (replicaStep (repo ++ [nm]) pd nm false g s0).lookup (repo ++ [nm])
        = some (Node.symlink ⟨false, relpath destfile repo⟩) := by
      rw [hstepdef, lookup_hardlink_or_copy _ _ _ _ (hassoc ▸ hrpm_ne s0)]
      exact hg'
    have hg1df : (replicaStep (repo ++ [nm]) pd nm false g s0).lookup destfile
        = some (Node.file i c) := by
      rw [hstepdef, lookup_hardlink_or_copy _ _ _ _
        (hassoc ▸ hdfne s0 (List.mem_cons_self s0 ss))]
      exact hg''
    rcases List.mem_cons.mp hs with rfl | hmem
    · refine ⟨j0, ?_⟩
      have hval : (replicaStep (repo ++ [nm]) pd nm false g s).lookup (pd ++ [s, nm])
          = some (Node.file j0 c) := by
        rw [← hassoc, hstepdef]
        exact hj0
      rw [replicaFold_pres_pair pd nm (repo ++ [nm]) s ss _
          (List.nodup_cons.mp hnd).1 (by rw [hval]; rfl), hval]
    · exact ih _ (List.nodup_cons.mp hnd).2
        (fun s' hs' => hdfne s' (List.mem_cons.mpr (Or.inr hs'))) hg1sym hg1df s hmem

theorem migrate_rpm_post_noncondor (repo pd : FPath) (subs : List Name) (fs : FS) (nm : Name)
    (i c : Nat) (hlen : repo.length ≤ pd.length)
    (hfile : fs.lookup (repo ++ [nm]) = some (Node.file i c))
    (hnc : isCondorRpm nm = false) :
    (migrate_rpm repo pd subs false fs nm).lookup (pd ++ [bucketFor nm, nm])
        = some (Node.file i c)
    ∧ (migrate_rpm repo pd subs false fs nm).lookup (repo ++ [nm])
        = some (Node.symlink ⟨false, relpath (pd ++ [bucketFor nm, nm]) repo⟩) := by
  unfold migrate_rpm
  rw [if_neg (isSymlinkAt_false_of_file hfile)]
  simp only [hnc, Bool.false_eq_true, if_false]
  have hassoc : ((pd ++ [bucketFor nm]) ++ [nm] : FPath) = pd ++ [bucketFor nm, nm] := by simp
  have hne1 : ¬ ((pd ++ [bucketFor nm]) ++ [nm] : FPath) = repo ++ [nm] := by
    apply ne_of_length_ne
    simp only [List.length_append, List.length_cons, List.length_nil]
    omega
  have hg : (mkdirParents fs (pd ++ [bucketFor nm])).lookup (repo ++ [nm])
      = some (Node.file i c) := by
    rw [lookup_mkdirParents _ _ _ (by rw [hfile]; rfl)]
    exact hfile
  constructor
  · rw [← hassoc, lookup_move_and_symlink, if_neg hne1, if_pos rfl, hg]
  · rw [lookup_move_and_symlink, if_pos rfl]
    have hdl : (repo ++ [nm]).dropLast = repo := by simp
    rw [hdl, hassoc]

theorem migrate_rpm_post_condor (repo pd : FPath) (subs : List Name) (fs : FS) (nm : Name)
    (i c : Nat) (hlen : repo.length ≤ pd.length)
    (hrepoND : noDots repo) (hpdND : noDots pd)
    (hheadND : subs.headD [] ≠ dotdot ∧ subs.headD [] ≠ dotName)
    (hnmd : nm ≠ dotdot ∧ nm ≠ dotName)
    (hnodup : subs.Nodup)
    (hfile : fs.lookup (repo ++ [nm]) = some (Node.file i c))
    (hc : isCondorRpm nm = true) :
    (migrate_rpm repo pd subs false fs nm).lookup (pd ++ [subs.headD [], nm])
        = some (Node.file i c)
    ∧ (migrate_rpm repo pd subs false fs nm).lookup (repo ++ [nm])
        = some (Node.symlink ⟨false, relpath (pd ++ [subs.headD [], nm]) repo⟩)
    ∧ ∀ s ∈ subs.drop 1, ∃ j,
        (migrate_rpm repo pd subs false fs nm).lookup (pd ++ [s, nm])
          = some (Node.file j c) := by
  unfold migrate_rpm
  rw [if_neg (isSymlinkAt_false_of_file hfile)]
  simp only [hc, if_true, Bool.false_eq_true, if_false]
  have hassoc : ((pd ++ [subs.headD []]) ++ [nm] : FPath) = pd ++ [subs.headD [], nm] := by
    simp
  have hne1 : ¬ ((pd ++ [subs.headD []]) ++ [nm] : FPath) = repo ++ [nm] := by
    apply ne_of_length_ne
    simp only [List.length_append, List.length_cons, List.length_nil]
    omega
  have hrpm_ne : ∀ sub : Name, (repo ++ [nm] : FPath) ≠ pd ++ [sub, nm] := by
    intro sub
    apply ne_of_length_ne
    simp only [List.length_append, List.length_cons, List.length_nil]
    omega
  have hg : (mkdirParents fs (pd ++ [subs.headD []])).lookup (repo ++ [nm])
      = some (Node.file i c) := by
    rw [lookup_mkdirParents _ _ _ (by rw [hfile]; rfl)]
    exact hfile
  have hdfND : noDots (pd ++ [subs.headD [], nm]) := by
    intro x hx
    rcases List.mem_append.mp hx with hx | hx
    · exact hpdND x hx
    · rcases List.mem_cons.mp hx with rfl | hx
      · exact hheadND
      · rcases List.mem_cons.mp hx with rfl | hx
        · exact hnmd
        · exact absurd hx (by simp)
  have hfs1df : (move_and_symlink (mkdirParents fs (pd ++ [subs.headD []])) (repo ++ [nm])
      ((pd ++ [subs.headD []]) ++ [nm])).lookup (pd ++ [subs.headD [], nm])
      = some (Node.file i c) := by
    rw [← hassoc, lookup_move_and_symlink, if_neg hne1, if_pos rfl, hg]
  have hfs1sym : (move_and_symlink (mkdirParents fs (pd ++ [subs.headD []])) (repo ++ [nm])
      ((pd ++ [subs.headD []]) ++ [nm])).lookup (repo ++ [nm])
      = some (Node.symlink ⟨false, relpath (pd ++ [subs.headD [], nm]) repo⟩) := by
    rw [lookup_move_and_symlink, if_pos rfl]
    have hdl : (repo ++ [nm]).dropLast = repo := by simp
    rw [hdl, hassoc]
  have hdfne : ∀ s ∈ subs.drop 1, (pd ++ [subs.headD [], nm] : FPath) ≠ pd ++ [s, nm] := by
    intro s hsmem heq
    have h2 : ([subs.headD [], nm] : FPath) = [s, nm] := by
      refine List.append_cancel_left (?_ : pd ++ _ = pd ++ _)
      exact heq
    have h3 : subs.headD [] = s := by injection h2
    exact headD_not_mem_drop subs hnodup (h3 ▸ hsmem)
  have hdropnd : (subs.drop 1).Nodup := hnodup.sublist (List.drop_sublist 1 subs)
  refine ⟨?_, ?_, ?_⟩
  · rw [replicaFold_pres_pair pd nm (repo ++ [nm]) (subs.headD []) (subs.drop 1) _
        (headD_not_mem_drop subs hnodup) (by rw [hfs1df]; rfl), hfs1df]
  · rw [replicaFold_frame (repo ++ [nm]) pd nm false (repo ++ [nm]) hrpm_ne (subs.drop 1) _
        (by rw [hfs1sym]; rfl), hfs1sym]
  · intro s hs
    exact replicaFold_post repo pd (pd ++ [subs.headD [], nm]) nm i c hrepoND hdfND hlen
      (subs.drop 1) _ hdropnd hdfne hfs1sym hfs1df s hs

theorem rpmpath_conds (repo pd : FPath) (n : Name) (L : List Name) (hnot : n ∉ L) :
    ∀ m ∈ L, (repo ++ [n] : FPath) ≠ repo ++ [m]
      ∧ ∀ s, (repo ++ [n] : FPath) ≠ pd ++ [s, m] := by
  intro m hm
  have hne : n ≠ m := fun h => hnot (h ▸ hm)
  constructor
  · intro hc
    exact hne (by simpa using List.append_cancel_left hc)
  · intro s
    exact append_single_ne_append_pair hne

theorem destpath_conds (repo pd : FPath) (hlen : repo.length ≤ pd.length) (b n : Name)
    (L : List Name) (hnot : n ∉ L) :
    ∀ m ∈ L, (pd ++ [b, n] : FPath) ≠ repo ++ [m]
      ∧ ∀ s, (pd ++ [b, n] : FPath) ≠ pd ++ [s, m] := by
  intro m hm
  have hne : n ≠ m := fun h => hnot (h ▸ hm)
  constructor
  · apply ne_of_length_ne
    simp only [List.length_append, List.length_cons, List.length_nil]
    omega
  · intro s h
    have h2 : ([b, n] : FPath) = [s, m] := List.append_cancel_left h
    have h3 : ([n] : FPath) = [m] := by injection h2
    have h4 : n = m := by injection h3
    exact hne h4

theorem run_post_noncondor (fs : FS) (repo pd : FPath) (n : Name) (i c : Nat)
    (hlen : repo.length ≤ pd.length)
    (hmem : n ∈ listRpms fs repo)
    (hfile : fs.lookup (repo ++ [n]) = some (Node.file i c))
    (hnc : isCondorRpm n = false)
    (hleg : (listRpms fs repo).any isLegacy = false) :
    (migrate_one_repo fs repo pd false).1.lookup (pd ++ [bucketFor n, n])
      = some (Node.file i c)
    ∧ (migrate_one_repo fs repo pd false).1.lookup (repo ++ [n])
      = some (Node.symlink ⟨false, relpath (pd ++ [bucketFor n, n]) repo⟩) := by
  obtain ⟨l1, l2, hL⟩ := List.append_of_mem hmem
  have hnod := nodup_listRpms fs repo
  rw [hL] at hnod
  obtain ⟨hl1nd, hconsnd, hdisj⟩ := List.nodup_append.mp hnod
  have hn_l2 : n ∉ l2 := (List.nodup_cons.mp hconsnd).1
  have hn_l1 : n ∉ l1 := fun h => hdisj h (List.mem_cons_self n l2)
  have hrun : (migrate_one_repo fs repo pd false).1
      = l2.foldl (migrate_rpm repo pd (get_condor_package_subdirs repo) false)
          (migrate_rpm repo pd (get_condor_package_subdirs repo) false
            (l1.foldl (migrate_rpm repo pd (get_condor_package_subdirs repo) false) fs) n) := by
    unfold migrate_one_repo
    rw [if_neg (by rw [hleg]; simp), hL, List.foldl_append, List.foldl_cons]
  have hg1 : (l1.foldl (migrate_rpm repo pd (get_condor_package_subdirs repo) false) fs).lookup
      (repo ++ [n]) = some (Node.file i c) := by
    rw [runFold_frame repo pd _ false l1 fs _ (by rw [hfile]; rfl)
        (rpmpath_conds repo pd n l1 hn_l1)]
    exact hfile
  obtain ⟨hp1, hp2⟩ := migrate_rpm_post_noncondor repo pd
    (get_condor_package_subdirs repo) _ n i c hlen hg1 hnc
  constructor
  · rw [hrun, runFold_frame repo pd _ false l2 _ _ (by rw [hp1]; rfl)
        (destpath_conds repo pd hlen (bucketFor n) n l2 hn_l2)]
    exact hp1
  · rw [hrun, runFold_frame repo pd _ false l2 _ _ (by rw [hp2]; rfl)
        (rpmpath_conds repo pd n l2 hn_l2)]
    exact hp2

theorem condor_subdirs_nodup (repo : FPath) : (get_condor_package_subdirs repo).Nodup := by
  rcases condor_subdirs_cases repo with h | h | h <;> rw [h] <;> decide

theorem condor_headD_not_dots (repo : FPath) :
    (get_condor_package_subdirs repo).headD [] ≠ dotdot
      ∧ (get_condor_package_subdirs repo).headD [] ≠ dotName := by
  rcases condor_subdirs_cases repo with h | h | h <;> rw [h] <;> exact ⟨by decide, by decide⟩

theorem run_post_condor (fs : FS) (repo pd : FPath) (n : Name) (i c : Nat)
    (hlen : repo.length ≤ pd.length)
    (hrepoND : noDots repo) (hpdND : noDots pd)
    (hmem : n ∈ listRpms fs repo)
    (hfile : fs.lookup (repo ++ [n]) = some (Node.file i c))
    (hc : isCondorRpm n = true)
    (hleg : (listRpms fs repo).any isLegacy = false) :
    (migrate_one_repo fs repo pd false).1.lookup
        (pd ++ [(get_condor_package_subdirs repo).headD [], n]) = some (Node.file i c)
    ∧ (migrate_one_repo fs repo pd false).1.lookup (repo ++ [n])
        = some (Node.symlink ⟨false,
            relpath (pd ++ [(get_condor_package_subdirs repo).headD [], n]) repo⟩)
    ∧ ∀ s ∈ (get_condor_package_subdirs repo).drop 1, ∃ j,
        (migrate_one_repo fs repo pd false).1.lookup (pd ++ [s, n])
          = some (Node.file j c) := by
  have hrpm : isRpmName n = true := ((mem_listRpms fs repo n).mp hmem).2
  have hnmd := rpm_not_dots hrpm
  obtain ⟨l1, l2, hL⟩ := List.append_of_mem hmem
  have hnod := nodup_listRpms fs repo
  rw [hL] at hnod
  obtain ⟨hl1nd, hconsnd, hdisj⟩ := List.nodup_append.mp hnod
  have hn_l2 : n ∉ l2 := (List.nodup_cons.mp hconsnd).1
  have hn_l1 : n ∉ l1 := fun h => hdisj h (List.mem_cons_self n l2)
  have hrun : (migrate_one_repo fs repo pd false).1
      = l2.foldl (migrate_rpm repo pd (get_condor_package_subdirs repo) false)
          (migrate_rpm repo pd (get_condor_package_subdirs repo) false
            (l1.foldl (migrate_rpm repo pd (get_condor_package_subdirs repo) false) fs) n) := by
    unfold migrate_one_repo
    rw [if_neg (by rw [hleg]; simp), hL, List.foldl_append, List.foldl_cons]
  have hg1 : (l1.foldl (migrate_rpm repo pd (get_condor_package_subdirs repo) false) fs).lookup
      (repo ++ [n]) = some (Node.file i c) := by
    rw [runFold_frame repo pd _ false l1 fs _ (by rw [hfile]; rfl)
        (rpmpath_conds repo pd n l1 hn_l1)]
    exact hfile
  obtain ⟨hp1, hp2, hp3⟩ := migrate_rpm_post_condor repo pd
    (get_condor_package_subdirs repo) _ n i c hlen hrepoND hpdND
    (condor_headD_not_dots repo) hnmd (condor_subdirs_nodup repo) hg1 hc
  refine ⟨?_, ?_, ?_⟩
  · rw [hrun, runFold_frame repo pd _ false l2 _ _ (by rw [hp1]; rfl)
        (destpath_conds repo pd hlen ((get_condor_package_subdirs repo).headD []) n l2 hn_l2)]
    exact hp1
  · rw [hrun, runFold_frame repo pd _ false l2 _ _ (by rw [hp2]; rfl)
        (rpmpath_conds repo pd n l2 hn_l2)]
    exact hp2
  · intro s hs
    obtain ⟨j, hj⟩ := hp3 s hs
    refine ⟨j, ?_⟩
    rw [hrun, runFold_frame repo pd _ false l2 _ _ (by rw [hj]; rfl)
        (destpath_conds repo pd hlen s n l2 hn_l2)]
    exact hj

/-! ## The legacy gate and dry-run runs -/

theorem migrate_one_repo_gate (fs : FS) (repo pd : FPath) (dR : Bool)
    (hleg : (listRpms fs repo).any isLegacy = true) :
    migrate_one_repo fs repo pd dR = (fs, false) := by
  unfold migrate_one_repo
  rw [if_pos hleg]

theorem migrate_rpm_dry (repo pd : FPath) (subs : List Name) (fs : FS) (nm : Name) :
    migrate_rpm repo pd subs true fs nm = fs := by
  unfold migrate_rpm
  by_cases hsym : isSymlinkAt fs (repo ++ [nm]) = true
  · rw [if_pos hsym]
  · rw [if_neg hsym]
    by_cases hc : isCondorRpm nm = true
    · simp only [hc, if_true]
      exact replicaFold_dry _ _ _ _ fs
    · simp only [hc, Bool.false_eq_true, if_false]
      rfl

theorem runFold_dry (repo pd : FPath) (subs : List Name) :
    ∀ (L : List Name) (fs : FS), L.foldl (migrate_rpm repo pd subs true) fs = fs := by
  intro L
  induction L with
  | nil => intro fs; rfl
  | cons nm ns ih =>
    intro fs
    rw [List.foldl_cons, migrate_rpm_dry]
    exact ih fs

theorem migrate_one_repo_dry (fs : FS) (repo pd : FPath) :
    (migrate_one_repo fs repo pd true).1 = fs := by
  unfold migrate_one_repo
  by_cases h : (listRpms fs repo).any isLegacy = true
  · rw [if_pos h]
  · rw [if_neg h]
    exact runFold_dry repo pd _ _ fs

theorem migrate_source_dry :
    ∀ (l : List FPath) (fs : FS), migrate_source true fs l = fs := by
  intro l
  induction l with
  | nil => intro fs; rfl
  | cons repo rest ih =>
    intro fs
    show (if endsSourceSRPMS repo = true then _ else migrate_source true fs rest) = fs
    by_cases h1 : endsSourceSRPMS repo = true
    · rw [if_pos h1]
      by_cases h2 : isSymlinkAt fs repo = true
      · rw [if_pos h2]
      · rw [if_neg h2]
        by_cases h3 : existsAt fs (repo.dropLast.dropLast ++ ["src".toList]) = true
        · rw [if_pos h3]
        · rw [if_neg h3]
          have hr1 : (migrate_one_repo fs repo (repo ++ ["Packages".toList]) true).1 = fs :=
            migrate_one_repo_dry fs repo (repo ++ ["Packages".toList])
          show migrate_source true
              (if (migrate_one_repo fs repo (repo ++ ["Packages".toList]) true).2 = true then
                (if true = true then
                  (migrate_one_repo fs repo (repo ++ ["Packages".toList]) true).1
                 else move_and_symlink
                  (migrate_one_repo fs repo (repo ++ ["Packages".toList]) true).1
                  repo (repo.dropLast.dropLast ++ ["src".toList]))
               else (migrate_one_repo fs repo (repo ++ ["Packages".toList]) true).1) rest = fs
          by_cases hr2 : (migrate_one_repo fs repo (repo ++ ["Packages".toList]) true).2 = true
          · rw [if_pos hr2, if_pos rfl, hr1]
            exact ih fs
          · rw [if_neg hr2, hr1]
            exact ih fs
    · rw [if_neg h1]
      exact ih fs

/-! ## Lemmas about migrate_source and the latest-release selection -/

theorem migrate_source_gate_skip (fs : FS) (repo : FPath) (rest : List FPath) (dR : Bool)
    (hleg : (listRpms fs repo).any isLegacy = true)
    (h1 : endsSourceSRPMS repo = true)
    (h2 : isSymlinkAt fs repo = false)
    (h3 : existsAt fs (repo.dropLast.dropLast ++ ["src".toList]) = false) :
    migrate_source dR fs (repo :: rest) = migrate_source dR fs rest := by
  show (if endsSourceSRPMS repo = true then _ else migrate_source dR fs rest) = _
  rw [if_pos h1, if_neg (by rw [h2]; simp), if_neg (by rw [h3]; simp)]
  show migrate_source dR
      (if (migrate_one_repo fs repo (repo ++ ["Packages".toList]) dR).2 = true then
        (if dR = true then
          (migrate_one_repo fs repo (repo ++ ["Packages".toList]) dR).1
         else move_and_symlink
          (migrate_one_repo fs repo (repo ++ ["Packages".toList]) dR).1
          repo (repo.dropLast.dropLast ++ ["src".toList]))
       else (migrate_one_repo fs repo (repo ++ ["Packages".toList]) dR).1) rest = _
  rw [migrate_one_repo_gate fs repo (repo ++ ["Packages".toList]) dR hleg]
  rw [if_neg (by simp)]

theorem firstMaxBy_mem (f : FPath → Nat) :
    ∀ (l : List FPath) (x : FPath), firstMaxBy f x l ∈ x :: l := by
  intro l
  induction l with
  | nil => intro x; simp [firstMaxBy]
  | cons y ys ih =>
    intro x
    unfold firstMaxBy
    by_cases h : f y > f x
    · rw [if_pos h]
      rcases List.mem_cons.mp (ih y) with h1 | h1
      · rw [h1]
        exact List.mem_cons.mpr (Or.inr (List.mem_cons_self y ys))
      · exact List.mem_cons.mpr (Or.inr (List.mem_cons.mpr (Or.inr h1)))
    · rw [if_neg h]
      rcases List.mem_cons.mp (ih x) with h1 | h1
      · exact List.mem_cons.mpr (Or.inl h1)
      · exact List.mem_cons.mpr (Or.inr (List.mem_cons.mpr (Or.inr h1)))

theorem firstMaxBy_ge (f : FPath → Nat) :
    ∀ (l : List FPath) (x : FPath), ∀ y ∈ x :: l, f y ≤ f (firstMaxBy f x l) := by
  intro l
  induction l with
  | nil =>
    intro x y hy
    have hxy : y = x := by simpa using hy
    rw [hxy]
    exact Nat.le_refl _
  | cons z zs ih =>
    intro x y hy
    unfold firstMaxBy
    have hcases : y = x ∨ y ∈ z :: zs := List.mem_cons.mp hy
    by_cases h : f z > f x
    · rw [if_pos h]
      rcases hcases with heq | hmem
      · rw [heq]
        exact Nat.le_trans (Nat.le_of_lt h) (ih z z (List.mem_cons_self z zs))
      · exact ih z y hmem
    · rw [if_neg h]
      rcases hcases with heq | hmem
      · rw [heq]
        exact ih x x (List.mem_cons_self x zs)
      · rcases List.mem_cons.mp hmem with heq2 | hmem2
        · rw [heq2]
          exact Nat.le_trans (Nat.le_of_not_lt h) (ih x x (List.mem_cons_self x zs))
        · exact ih x y (List.mem_cons.mpr (Or.inr hmem2))

theorem mem_releaseCandidates {fs : FS} {root : FPath} {arch : Name} {p : FPath}
    (h : p ∈ releaseCandidates fs root arch) :
    isInitSeg root p = true ∧ rglobMatch arch (p.drop root.length) = true
      ∧ 0 < get_release_number (lastName p) := by
  unfold releaseCandidates at h
  rw [List.mem_dedup, List.mem_filter] at h
  obtain ⟨_, hb⟩ := h
  simp only [Bool.and_eq_true, decide_eq_true_eq] at hb
  exact ⟨hb.1.1, hb.1.2, hb.2⟩

theorem relative_to_of_init {p base : FPath} (h : isInitSeg base p = true) :
    relative_to p base = some (p.drop base.length) := by
  unfold relative_to
  rw [if_pos h]

theorem isInitSeg_of_concat_init {a b : FPath} {x : Name}
    (h : isInitSeg (a ++ [x]) b = true) : isInitSeg a b = true := by
  obtain ⟨t, rfl⟩ := (isInitSeg_iff _ _).mp h
  exact (isInitSeg_iff _ _).mpr ⟨[x] ++ t, by simp⟩

/-! ## The claims -/

/-- C1: when any enumerated package name in the repository matches the
legacy-version marker `[.]osg(3[123456]|devops)`, `migrate_one_repo` mutates
nothing and returns `migrated = false`; and when such a repository is reached
by `migrate_source` (its guards passed), the directory-level rename and
compatibility symlink are also skipped, leaving the source tree untouched. -/
theorem c1_legacy_gate_no_mutation (fs : FS) (repo pd : FPath) (rest : List FPath)
    (dR : Bool) (hleg : (listRpms fs repo).any isLegacy = true) :
    migrate_one_repo fs repo pd dR = (fs, false)
    ∧ (endsSourceSRPMS repo = true → isSymlinkAt fs repo = false →
        existsAt fs (repo.dropLast.dropLast ++ ["src".toList]) = false →
        migrate_source dR fs (repo :: rest) = migrate_source dR fs rest) :=
  ⟨migrate_one_repo_gate fs repo pd dR hleg,
   fun h1 h2 h3 => migrate_source_gate_skip fs repo rest dR hleg h1 h2 h3⟩

/-- Witness for C1 at a concrete legacy-marked source repository. -/
theorem c1_legacy_gate_no_mutation_witness :
    migrate_one_repo fsW1 repoW1 (repoW1 ++ ["Packages".toList]) false = (fsW1, false)
    ∧ (endsSourceSRPMS repoW1 = true → isSymlinkAt fsW1 repoW1 = false →
        existsAt fsW1 (repoW1.dropLast.dropLast ++ ["src".toList]) = false →
        migrate_source false fsW1 (repoW1 :: []) = migrate_source false fsW1 []) :=
  c1_legacy_gate_no_mutation fsW1 repoW1 (repoW1 ++ ["Packages".toList]) [] false (by decide)

/-- C2: with no legacy-marked package, running `migrate_one_repo` a second
time from the state produced by the first run changes nothing: every file the
first run moved is a symlink at its original path and is skipped
individually, so the final filesystem state equals the state after one run
(`packages_dir` as at every call site: `repo/Packages` or
`repo.parent/Packages`). -/
theorem c2_migrate_idempotent (fs : FS) (repo pd : FPath)
    (hpd : pd = repo ++ ["Packages".toList] ∨ pd = repo.dropLast ++ ["Packages".toList])
    (hleg : (listRpms fs repo).any isLegacy = false) :
    migrate_one_repo (migrate_one_repo fs repo pd false).1 repo pd false
      = ((migrate_one_repo fs repo pd false).1, true) := by
  have h1 : (migrate_one_repo fs repo pd false).1
      = (listRpms fs repo).foldl
          (migrate_rpm repo pd (get_condor_package_subdirs repo) false) fs := by
    unfold migrate_one_repo
    rw [if_neg (by rw [hleg]; simp)]
  rw [h1]
  exact c2core fs repo pd hpd hleg

/-- Witness for C2 at a concrete two-package release repository. -/
theorem c2_migrate_idempotent_witness :
    migrate_one_repo (migrate_one_repo fsW2 repoW2 (repoW2 ++ ["Packages".toList]) false).1
        repoW2 (repoW2 ++ ["Packages".toList]) false
      = ((migrate_one_repo fsW2 repoW2 (repoW2 ++ ["Packages".toList]) false).1, true) :=
  c2_migrate_idempotent fsW2 repoW2 (repoW2 ++ ["Packages".toList]) (Or.inl rfl) (by decide)

/-- C4: with `dry_run = true` neither `migrate_one_repo` nor `migrate_source`
creates, moves, links, renames or deletes any filesystem object, for any
input state. -/
theorem c4_dry_run_no_mutation (fs : FS) (repo pd : FPath) (roots : List FPath) :
    (migrate_one_repo fs repo pd true).1 = fs
    ∧ migrate_source true fs roots = fs :=
  ⟨migrate_one_repo_dry fs repo pd, migrate_source_dry roots fs⟩

/-- C5: a non-Condor package file is moved into the bucket named by the
lowercase of its first character, digits collapsing to the bucket `"0"`;
e.g. `zlib-…` goes to bucket `z` and `7zip-…` to bucket `0`. -/
theorem c5_noncondor_bucket (fs : FS) (repo pd : FPath) (n : Name) (i c : Nat)
    (hlen : repo.length ≤ pd.length)
    (hmem : n ∈ listRpms fs repo)
    (hfile : fs.lookup (repo ++ [n]) = some (Node.file i c))
    (hnc : isCondorRpm n = false)
    (hleg : (listRpms fs repo).any isLegacy = false) :
    (migrate_one_repo fs repo pd false).1.lookup (pd ++ [bucketFor n, n])
        = some (Node.file i c)
    ∧ (∀ c0 cs, n = c0 :: cs →
        bucketFor n = if c0 ∈ digitChars then ['0'] else [c0.toLower])
    ∧ bucketFor "zlib-1.2.3-1.osg24.x86_64.rpm".toList = ['z']
    ∧ bucketFor "7zip-1.0-1.osg24.x86_64.rpm".toList = ['0'] := by
  refine ⟨(run_post_noncondor fs repo pd n i c hlen hmem hfile hnc hleg).1, ?_,
    by decide, by decide⟩
  intro c0 cs hn
  rw [hn]
  rfl

/-- Witness for C5: the concrete `zlib` package lands in `Packages/z/`. -/
theorem c5_noncondor_bucket_witness :
    (migrate_one_repo fsW2 repoW2 (repoW2 ++ ["Packages".toList]) false).1.lookup
        ((repoW2 ++ ["Packages".toList]) ++ [['z'], "zlib-1.2.3-1.osg24.x86_64.rpm".toList])
      = some (Node.file 2 102)
    ∧ (∀ c0 cs, "zlib-1.2.3-1.osg24.x86_64.rpm".toList = c0 :: cs →
        bucketFor "zlib-1.2.3-1.osg24.x86_64.rpm".toList
          = if c0 ∈ digitChars then ['0'] else [c0.toLower])
    ∧ bucketFor "zlib-1.2.3-1.osg24.x86_64.rpm".toList = ['z']
    ∧ bucketFor "7zip-1.0-1.osg24.x86_64.rpm".toList = ['0'] :=
  c5_noncondor_bucket fsW2 repoW2 (repoW2 ++ ["Packages".toList])
    "zlib-1.2.3-1.osg24.x86_64.rpm".toList 2 102
    (by decide) (by decide) (by decide) (by decide) (by decide)

/-- C10: from any initial state, `migrate_one_repo` returns the same
migrated/skipped boolean with `dry_run = true` as with `dry_run = false`:
the flag suppresses mutation only, never the decision. -/
theorem c10_dry_run_same_decision (fs : FS) (repo pd : FPath) :
    (migrate_one_repo fs repo pd true).2 = (migrate_one_repo fs repo pd false).2 := by
  unfold migrate_one_repo
  by_cases h : (listRpms fs repo).any isLegacy = true
  · rw [if_pos h, if_pos h]
  · rw [if_neg h, if_neg h]

/-- C3: a Condor-family package's ordered destination buckets are determined
by the repository channel (`testing`/`release` give
`[condor-release, condor-update]`, `development` gives `[condor-daily]`,
anything else gives all three); the file is moved into the first bucket with
a relative compatibility symlink left behind that resolves to the new
location, and a replica with identical content (hard link or copy) is placed
in every remaining bucket of the ordering. -/
theorem c3_condor_buckets (fs : FS) (repo pd : FPath) (n : Name) (i c : Nat)
    (hlen : repo.length ≤ pd.length)
    (hrepoND : noDots repo) (hpdND : noDots pd)
    (hmem : n ∈ listRpms fs repo)
    (hfile : fs.lookup (repo ++ [n]) = some (Node.file i c))
    (hc : isCondorRpm n = true)
    (hleg : (listRpms fs repo).any isLegacy = false) :
    ((repoParentName repo = "testing".toList ∨ repoParentName repo = "release".toList) →
      get_condor_package_subdirs repo = ["condor-release".toList, "condor-update".toList])
    ∧ (repoParentName repo = "development".toList →
        get_condor_package_subdirs repo = ["condor-daily".toList])
    ∧ (¬ (repoParentName repo = "testing".toList ∨ repoParentName repo = "release".toList) →
        ¬ repoParentName repo = "development".toList →
        get_condor_package_subdirs repo
          = ["condor-release".toList, "condor-update".toList, "condor-daily".toList])
    ∧ (migrate_one_repo fs repo pd false).1.lookup
        (pd ++ [(get_condor_package_subdirs repo).headD [], n]) = some (Node.file i c)
    ∧ (migrate_one_repo fs repo pd false).1.lookup (repo ++ [n])
        = some (Node.symlink ⟨false,
            relpath (pd ++ [(get_condor_package_subdirs repo).headD [], n]) repo⟩)
    ∧ normPath (repo ++ relpath (pd ++ [(get_condor_package_subdirs repo).headD [], n]) repo)
        = pd ++ [(get_condor_package_subdirs repo).headD [], n]
    ∧ ∀ s ∈ (get_condor_package_subdirs repo).drop 1, ∃ j,
        (migrate_one_repo fs repo pd false).1.lookup (pd ++ [s, n])
          = some (Node.file j c) := by
  have hrpm : isRpmName n = true := ((mem_listRpms fs repo n).mp hmem).2
  have hnmd := rpm_not_dots hrpm
  have hdfND : noDots (pd ++ [(get_condor_package_subdirs repo).headD [], n]) := by
    intro x hx
    rcases List.mem_append.mp hx with hx | hx
    · exact hpdND x hx
    · rcases List.mem_cons.mp hx with rfl | hx
      · exact condor_headD_not_dots repo
      · rcases List.mem_cons.mp hx with rfl | hx
        · exact hnmd
        · exact absurd hx (by simp)
  obtain ⟨hp1, hp2, hp3⟩ := run_post_condor fs repo pd n i c hlen hrepoND hpdND
    hmem hfile hc hleg
  refine ⟨?_, ?_, ?_, hp1, hp2,
    normPath_relpath _ repo hrepoND hdfND, hp3⟩
  · intro h
    unfold get_condor_package_subdirs
    rw [if_pos h]
  · intro h
    unfold get_condor_package_subdirs
    rw [h, if_neg (by decide), if_pos (by decide)]
  · intro h1 h2
    unfold get_condor_package_subdirs
    rw [if_neg h1, if_neg h2]

/-- Witness for C3: the concrete Condor package in the release-channel repo
is moved to `Packages/condor-release/` and replicated (same inode) into
`Packages/condor-update/`. -/
theorem c3_condor_buckets_witness :
    ((repoParentName repoW2 = "testing".toList ∨ repoParentName repoW2 = "release".toList) →
      get_condor_package_subdirs repoW2 = ["condor-release".toList, "condor-update".toList])
    ∧ (repoParentName repoW2 = "development".toList →
        get_condor_package_subdirs repoW2 = ["condor-daily".toList])
    ∧ (¬ (repoParentName repoW2 = "testing".toList ∨ repoParentName repoW2 = "release".toList) →
        ¬ repoParentName repoW2 = "development".toList →
        get_condor_package_subdirs repoW2
          = ["condor-release".toList, "condor-update".toList, "condor-daily".toList])
    ∧ (migrate_one_repo fsW2 repoW2 (repoW2 ++ ["Packages".toList]) false).1.lookup
        ((repoW2 ++ ["Packages".toList])
          ++ [(get_condor_package_subdirs repoW2).headD [],
              "condor-10.0.0-1.osg23.el9.x86_64.rpm".toList]) = some (Node.file 1 101)
    ∧ (migrate_one_repo fsW2 repoW2 (repoW2 ++ ["Packages".toList]) false).1.lookup
        (repoW2 ++ ["condor-10.0.0-1.osg23.el9.x86_64.rpm".toList])
        = some (Node.symlink ⟨false,
            relpath ((repoW2 ++ ["Packages".toList])
              ++ [(get_condor_package_subdirs repoW2).headD [],
                  "condor-10.0.0-1.osg23.el9.x86_64.rpm".toList]) repoW2⟩)
    ∧ normPath (repoW2 ++ relpath ((repoW2 ++ ["Packages".toList])
        ++ [(get_condor_package_subdirs repoW2).headD [],
            "condor-10.0.0-1.osg23.el9.x86_64.rpm".toList]) repoW2)
        = (repoW2 ++ ["Packages".toList])
          ++ [(get_condor_package_subdirs repoW2).headD [],
              "condor-10.0.0-1.osg23.el9.x86_64.rpm".toList]
    ∧ ∀ s ∈ (get_condor_package_subdirs repoW2).drop 1, ∃ j,
        (migrate_one_repo fsW2 repoW2 (repoW2 ++ ["Packages".toList]) false).1.lookup
            ((repoW2 ++ ["Packages".toList]) ++ [s, "condor-10.0.0-1.osg23.el9.x86_64.rpm".toList])
          = some (Node.file j 101) :=
  c3_condor_buckets fsW2 repoW2 (repoW2 ++ ["Packages".toList])
    "condor-10.0.0-1.osg23.el9.x86_64.rpm".toList 1 101
    (by decide) (by decide) (by decide) (by decide) (by decide) (by decide) (by decide)

/-- C6 (code bug): the already-migrated guards in `migrate_source` execute
`return`, not `continue`: at a sequence of two located source roots whose
first is already a symlink, the whole run stops — the filesystem is returned
unchanged and the second, unmigrated root is never processed, although
running on the second root alone does migrate it. -/
theorem c6_source_skip_aborts_iteration :
    migrate_source false fsW6 [repoS1, repoS2] = fsW6
    ∧ migrate_source false fsW6 [repoS2] ≠ fsW6 := by
  constructor
  · rfl
  · decide

/-- C7: the compatibility symlink left by `move_and_symlink` (used both per
file and for the source-tree rename) is relative, its target being computed
relative to the directory containing the original path, and following it
from the original location resolves to the new location. -/
theorem c7_compat_symlink_relative (fs : FS) (frompath topath : FPath)
    (hf : noDots frompath) (ht : noDots topath) :
    (move_and_symlink fs frompath topath).lookup frompath
        = some (Node.symlink ⟨false, relpath topath frompath.dropLast⟩)
    ∧ normPath (frompath.dropLast ++ relpath topath frompath.dropLast) = topath := by
  constructor
  · rw [lookup_move_and_symlink, if_pos rfl]
  · exact normPath_relpath topath frompath.dropLast
      (fun x hx => hf x (List.dropLast_subset frompath hx)) ht

/-- Witness for C7 at a concrete move into a bucket subdirectory. -/
theorem c7_compat_symlink_relative_witness :
    (move_and_symlink fsW7 ["a".toList, "b.rpm".toList]
        ["a".toList, "P".toList, "z".toList, "b.rpm".toList]).lookup
        ["a".toList, "b.rpm".toList]
      = some (Node.symlink ⟨false,
          relpath ["a".toList, "P".toList, "z".toList, "b.rpm".toList]
            (["a".toList, "b.rpm".toList] : FPath).dropLast⟩)
    ∧ normPath ((["a".toList, "b.rpm".toList] : FPath).dropLast
        ++ relpath ["a".toList, "P".toList, "z".toList, "b.rpm".toList]
          (["a".toList, "b.rpm".toList] : FPath).dropLast)
      = ["a".toList, "P".toList, "z".toList, "b.rpm".toList] :=
  c7_compat_symlink_relative fsW7 ["a".toList, "b.rpm".toList]
    ["a".toList, "P".toList, "z".toList, "b.rpm".toList] (by decide) (by decide)

/-- C9 (code bug): `link_static_data` computes
`pth.relative_to(dest.parent)` for a source entry `pth` that is not inside
the destination directory, so the first missing destination slot raises
`ValueError` instead of being populated with a symlink. -/
theorem c9_static_data_create_raises :
    link_static_data fsW9 (some ["st".toList]) ["d".toList] "osg".toList
      = Except.error (FsError.valueError
          ["st".toList, "osg".toList, "data".toList] ["d".toList, "osg".toList]) := by
  rfl

/-- C8 (amended): for a series with one OS version, `link_latest_release`
selects a candidate with maximal parsed release number (all candidates parse
positive) and creates the fixed-named latest symlink pointing at it by a
relative path — but only when nothing exists at the symlink path; if the
symlink already exists the call raises `FileExistsError` instead of
re-pointing, and when no valid candidate exists it returns the distinguished
"no valid release RPMs" failure naming the series. -/
theorem c8_latest_release_amended (fs : FS) (destRoot : FPath) (s : ReleaseSeries)
    (dver : Name) (hdv : s.dvers = [dver]) :
    (releaseCandidates fs ((destRoot ++ s.dest) ++ [dver]) (s.arches.headD []) = [] →
      link_latest_release destRoot fs [s] = Except.ok (LLResult.failed fs s.name))
    ∧ (∀ c0 crest,
        releaseCandidates fs ((destRoot ++ s.dest) ++ [dver]) (s.arches.headD [])
            = c0 :: crest →
        (((fs.lookup ((destRoot ++ s.dest) ++ [latestLinkName s dver])).isSome →
          link_latest_release destRoot fs [s]
            = Except.error (FsError.fileExists
                ((destRoot ++ s.dest) ++ [latestLinkName s dver])))
        ∧ (fs.lookup ((destRoot ++ s.dest) ++ [latestLinkName s dver]) = none →
            firstMaxBy (fun p => get_release_number (lastName p)) c0 crest ∈ c0 :: crest
            ∧ (∀ x ∈ c0 :: crest, get_release_number (lastName x)
                ≤ get_release_number (lastName
                    (firstMaxBy (fun p => get_release_number (lastName p)) c0 crest)))
            ∧ 0 < get_release_number (lastName
                (firstMaxBy (fun p => get_release_number (lastName p)) c0 crest))
            ∧ link_latest_release destRoot fs [s]
              = Except.ok (LLResult.ok
                  (fs.set ((destRoot ++ s.dest) ++ [latestLinkName s dver])
                    (Node.symlink ⟨false,
                      (firstMaxBy (fun p => get_release_number (lastName p)) c0 crest).drop
                        (destRoot ++ s.dest).length⟩)))))) := by
  constructor
  · intro hcand
    have h1 : llrDvers destRoot s fs [dver] = Except.ok (fs, false) := by
      simp only [llrDvers, hcand]
    simp only [link_latest_release, hdv, h1]
  · intro c0 crest hcand
    have hbest_mem : firstMaxBy (fun p => get_release_number (lastName p)) c0 crest
        ∈ c0 :: crest := firstMaxBy_mem _ crest c0
    have hcmem : firstMaxBy (fun p => get_release_number (lastName p)) c0 crest
        ∈ releaseCandidates fs ((destRoot ++ s.dest) ++ [dver]) (s.arches.headD []) := by
      rw [hcand]
      exact hbest_mem
    have hinit : isInitSeg ((destRoot ++ s.dest) ++ [dver])
        (firstMaxBy (fun p => get_release_number (lastName p)) c0 crest) = true :=
      (mem_releaseCandidates hcmem).1
    have hrel : relative_to (firstMaxBy (fun p => get_release_number (lastName p)) c0 crest)
        (destRoot ++ s.dest)
        = some ((firstMaxBy (fun p => get_release_number (lastName p)) c0 crest).drop
            (destRoot ++ s.dest).length) :=
      relative_to_of_init (isInitSeg_of_concat_init hinit)
    constructor
    · intro hsome
      have h1 : llrDvers destRoot s fs [dver]
          = Except.error (FsError.fileExists
              ((destRoot ++ s.dest) ++ [latestLinkName s dver])) := by
        simp only [llrDvers, hcand, hrel, symlink_to, if_pos hsome]
      simp only [link_latest_release, hdv, h1]
    · intro hnone
      have h1 : llrDvers destRoot s fs [dver]
          = Except.ok ((fs.set ((destRoot ++ s.dest) ++ [latestLinkName s dver])
              (Node.symlink ⟨false,
                (firstMaxBy (fun p => get_release_number (lastName p)) c0 crest).drop
                  (destRoot ++ s.dest).length⟩)), true) := by
        simp only [llrDvers, hcand, hrel, symlink_to, hnone, Option.isSome_none,
          Bool.false_eq_true, if_false]
      refine ⟨hbest_mem, firstMaxBy_ge _ crest c0, (mem_releaseCandidates hcmem).2.2, ?_⟩
      simp only [link_latest_release, hdv, h1]

/-- C8 counterexample to the claim as stated: at a state where the
fixed-named latest symlink already exists, the code raises
`FileExistsError` instead of re-pointing the symlink. -/
theorem c8_existing_symlink_raises :
    link_latest_release [] fsW8x [serW]
      = Except.error (FsError.fileExists
          ["23-main".toList, "osg-23-main-el9-release-latest.rpm".toList]) := by
  rfl

/-- Witness for C8 (amended): on the concrete candidate state without an
existing symlink, the call creates the latest symlink pointing, relatively,
at the highest-numbered release RPM. -/
theorem c8_latest_release_amended_witness :
    link_latest_release [] fsW8 [serW]
      = Except.ok (LLResult.ok (fsW8.set
          ["23-main".toList, "osg-23-main-el9-release-latest.rpm".toList]
          (Node.symlink ⟨false, ["el9".toList, "release".toList, "x86_64".toList,
            "osg-release-9.osg23.rpm".toList]⟩))) :=
  (((c8_latest_release_amended fsW8 [] serW "el9".toList rfl).2
      (["23-main".toList, "el9".toList, "release".toList, "x86_64".toList,
        "osg-release-5.osg23.rpm".toList])
      ([["23-main".toList, "el9".toList, "release".toList, "x86_64".toList,
        "osg-release-9.osg23.rpm".toList]])
      (by decide)).2 (by decide)).2.2.2
